import Mathlib

/-!
# Distributed pattern search (`search/search.c`)

A shallow embedding of the coordinator / worker pattern search of `search.c`:
the fair split `number_of_char`, the pattern filter of `main`, the chunk load
done by the root process, the brute-force matcher `check_pattern` and the
rank-ordered output.

Machine model.

* A C `int` is 32 bits wide, two's complement (`INT_MAX = 2147483647`).  Signed
  overflow is undefined in C; the compiled program wraps, and `wrapInt` models
  that.  A conversion to `int` (an `intmax_t` argument passed to an `int`
  parameter) reduces the value in the same way.
* `intmax_t` quantities of `main` (`num_elements`, `local_check +
  pattern_length`) stay far below `2^63` and are kept exact.
* Loop counters (`i`, `j`, `count`, `valid`, `c`) are bounded by string lengths
  and are natural numbers.
* A byte is a `Fin 256`; a C string is the part of a buffer before its first
  NUL.
* The content of a block returned by `malloc` is unspecified: it is a parameter
  (`garbage`, `heap`) of everything that allocates.
* The MPI transport is not modelled: a broadcast or a send / receive pair
  delivers the bytes it is given, so every rank works with the pattern, the
  sizes, the chunk string and the start index that the root computed.
* A run has a result (`some`) when every step of it is defined.  It is `none`
  when a rank stops on a failed allocation (a negative count), and also when a
  terminator is written at index `-1`, before the start of its buffer: there the
  C program does not stop, its behaviour is undefined and the embedding gives the
  run no result.

The sections after the search embed, with the same machine model, the matcher
of `search/test.c`, the split `number_of_checks` of `steadytemp/steady.c`, the
rectangle rule `approximate_ln` of `approxnatlog/natlog.c` and the threads of
`thread/redact.c`.
-/

namespace Search

/-- A byte of a file or of a buffer. -/
abbrev Byte := Fin 256

/-- The value an integer takes when it is stored in a 32-bit `int`. -/
def wrapInt (x : Int) : Int := (x + 2147483648) % 4294967296 - 2147483648

/-- `number_of_char` of `search.c`: all operands are `int`, the division
truncates towards zero (the divisor is the number of processes, `p ≥ 1`, so a
quotient of an `int` is an `int`). -/
def number_of_char (id file_size p : Int) : Int :=
  wrapInt (Int.tdiv (wrapInt (wrapInt (id + 1) * file_size)) p
           - Int.tdiv (wrapInt (id * file_size)) p)

/-- The value an integer takes when it is stored in a 64-bit `intmax_t`. -/
def wrapMax (x : Int) : Int :=
  (x + 9223372036854775808) % 18446744073709551616 - 9223372036854775808

/-- `thread_data[i].first` of `thread/redact.c`: `(i * file_size) / num_threads`
with `i`, `num_threads` of type `int` and `file_size` of type `intmax_t`. -/
def thread_first (i file_size num_threads : Int) : Int :=
  Int.tdiv (wrapMax (i * file_size)) num_threads

/-- `thread_data[i].last` of `thread/redact.c`:
`((i + 1) * file_size) / num_threads`. -/
def thread_last (i file_size num_threads : Int) : Int :=
  Int.tdiv (wrapMax (wrapInt (i + 1) * file_size)) num_threads

/-- The running total `num_elements` of `main` after the root has handled the
workers `0 .. i-1` (`num_elements += local_check`, then `num_elements += i_check`
in the loop); it is the start index shipped to worker `i`. -/
def num_elements (file_size p : Int) : Nat → Int
  | 0 => 0
  | i + 1 => num_elements file_size p i + number_of_char i file_size p

/-- `strlen`: the number of bytes before the first NUL of a buffer (a list
without NUL stands for the string followed by its terminator). -/
def strlen (s : List Byte) : Nat := (s.takeWhile (fun b => b != 0)).length

/-- The C string held by a buffer. -/
def cstr (s : List Byte) : List Byte := s.takeWhile (fun b => b != 0)

/-- The byte `s[k]` of a C string (the terminator when `k` is at the end). -/
def charAt (s : List Byte) (k : Nat) : Byte := s.getD k 0

/-- The inner `for (j ...)` loop of `check_pattern`, with `remaining` iterations
left: it stops at the first `j` with `i + j >= strlen(chunk)` or
`pattern[j] != chunk[i + j]` and yields the final `count`. -/
def inner_loop (chunk pattern : List Byte) (i : Nat) : Nat → Nat → Nat → Nat
  | 0, _, count => count
  | remaining + 1, j, count =>
    if i + j ≥ strlen chunk ∨ charAt pattern j ≠ charAt chunk (i + j) then count
    else inner_loop chunk pattern i remaining (j + 1) (count + 1)

/-- State of the outer loop of `check_pattern`: the array `res`, the number
`valid` of entries written and the running `start_index`. -/
structure ScanState where
  res : Nat → Int
  valid : Nat
  start_index : Int

/-- The outer `for (i ...)` loop of `check_pattern`, with `remaining` iterations
left. -/
def outer_loop (chunk pattern : List Byte) : Nat → Nat → ScanState → ScanState
  | 0, _, st => st
  | remaining + 1, i, st =>
    let count := inner_loop chunk pattern i (strlen pattern) 0 0
    let st1 : ScanState :=
      if count = strlen pattern then
        { st with res := Function.update st.res st.valid st.start_index,
                  valid := st.valid + 1 }
      else st
    outer_loop chunk pattern remaining (i + 1)
      { st1 with start_index := wrapInt (st1.start_index + 1) }

/-- `check_pattern` of `search.c` (the argument `checking` is never read by the
body; the `int` parameter `start_index` receives its argument converted to
`int`): returns the final array and the count `valid`. -/
def check_pattern (res : Nat → Int) (start_index : Int) (chunk pattern : List Byte) :
    ScanState :=
  outer_loop chunk pattern (strlen chunk) 0
    { res := res, valid := 0, start_index := wrapInt start_index }

/-- The entries `res[0 .. valid)` that the caller reads back. -/
def reported (st : ScanState) : List Int := (List.range st.valid).map st.res

/-- The value of a `char` in a comparison (`char` is signed on the build
target; with an unsigned `char` the test of the filter gives the same answer). -/
def charToInt (b : Byte) : Int := if b.val < 128 then b.val else (b.val : Int) - 256

/-- The filter loop of `main` over `temp = strdup(argv[1])`, with `remaining`
iterations left; `pattern` holds the `c` bytes copied so far. -/
def filter_loop (temp : List Byte) : Nat → Nat → List Byte → List Byte
  | 0, _, pattern => pattern
  | remaining + 1, i, pattern =>
    if charToInt (charAt temp i) ≥ 32 ∧ charToInt (charAt temp i) ≤ 126 then
      filter_loop temp remaining (i + 1) (pattern ++ [charAt temp i])
    else filter_loop temp remaining (i + 1) pattern

/-- The pattern set up by `main` from `argv[1]`. -/
def filter_pattern (argv1 : List Byte) : List Byte :=
  filter_loop argv1 (strlen argv1) 0 []

/-- A block returned by `malloc`: `size` bytes of unspecified content. -/
def malloc_block (garbage : Nat → Byte) (size : Nat) : List Byte :=
  (List.range size).map garbage

/-- `fread(buf, 1, count, file)` with the file position at `pos`: the bytes that
exist are copied to the front of `buf`, the rest of `buf` is left as it was. -/
def fread (buf file : List Byte) (pos count : Nat) : List Byte :=
  (file.drop pos).take count ++ buf.drop ((file.drop pos).take count).length

/-- The root fills the buffer of one worker (`main`, the `if / else` on
`num_elements + pattern_length > file_size` and the terminator written at
index `local_check + pattern_length - 1`). -/
def load_chunk (buf file : List Byte) (start local_check pattern_length : Nat) :
    List Byte :=
  (if start + pattern_length > file.length then buf.set 0 0
   else fread buf file start (local_check + pattern_length - 1)).set
    (local_check + pattern_length - 1) 0

/-- The buffer of one worker after the root has allocated and filled it:
`local_check + pattern_length + 1` bytes from `malloc`, then `load_chunk`. -/
def worker_chunk (garbage : Nat → Byte) (file pattern : List Byte)
    (start local_check : Int) : List Byte :=
  load_chunk (malloc_block garbage (local_check.toNat + pattern.length + 1)) file
    start.toNat local_check.toNat pattern.length

/-- One worker: its buffer is allocated and filled by the root, then scanned;
`pattern` holds the `pattern_length` bytes kept by the filter.  A negative
`local_check` (allocation of a negative size, `local_res` of negative length)
stops the run.  With a terminator index of `-1` (empty pattern and empty range)
the program does not stop: it asks `fread` for `(size_t)-1` bytes and writes
`chunk[-1]`, outside the buffer; that behaviour is undefined, and the embedding
gives it no result either (`none` is then not a statement about what the
machine prints).  The array `local_res` is not initialised; only the entries
`check_pattern` wrote are read back, so its initial content (here zeros) does
not matter. -/
def worker_step (garbage : Nat → Byte) (file pattern : List Byte)
    (start local_check : Int) : Option (List Int) :=
  if local_check < 0 ∨ local_check + (pattern.length : Int) - 1 < 0 then none
  else
    some (reported (check_pattern (fun _ => 0) start
      (worker_chunk garbage file pattern start local_check) pattern))

/-- The workers `id, id + 1, ...` (`remaining` of them), the root having read
`start` bytes so far: the lists each worker sends back, in rank order.  There
is a result only when every worker produces one. -/
def run_from (heap : Nat → Nat → Byte) (file pattern : List Byte) (p : Int) :
    Nat → Nat → Int → Option (List (List Int))
  | 0, _, _ => some []
  | remaining + 1, id, start =>
    (worker_step (heap id) file pattern start
        (number_of_char id (wrapInt file.length) p)).bind (fun out =>
      (run_from heap file pattern p remaining (id + 1)
          (start + number_of_char id (wrapInt file.length) p)).map (fun rest => out :: rest))

/-- The sequence of offsets printed by the root: its own results, then those
of the workers `1 .. p-1` in rank order. -/
def search_run (heap : Nat → Nat → Byte) (file pattern : List Byte) (p : Nat) :
    Option (List Int) :=
  (run_from heap file pattern p p 0 0).map List.flatten

/-- What worker `k` sends back in a run over `p` workers: its start index is
the running total, its count is `number_of_char`. -/
def worker_out (heap : Nat → Nat → Byte) (file pattern : List Byte) (p : Nat) (k : Nat) :
    Option (List Int) :=
  worker_step (heap k) file pattern (num_elements (wrapInt file.length) p k)
    (number_of_char k (wrapInt file.length) p)

/-- The whole of `main` on `argv[1]` and the content of the file `argv[2]`. -/
def search_main (heap : Nat → Nat → Byte) (argv1 file : List Byte) (p : Nat) :
    Option (List Int) :=
  search_run heap file (filter_pattern argv1) p


/-- The boundary formula of the partitioner as the specification words it:
`floor(k * total / workerCount)`. -/
def spec_boundary (k total workerCount : Nat) : Nat := k * total / workerCount

/-- A byte string without NUL. -/
def nul_free (s : List Byte) : Prop := ∀ b, b ∈ s → b ≠ 0

instance (s : List Byte) : Decidable (nul_free s) :=
  List.decidableBAll (fun b => b ≠ 0) s

/-- A byte in the printable ASCII range `0x20 .. 0x7E`. -/
def printable (b : Byte) : Bool := decide (0x20 ≤ b.val ∧ b.val ≤ 0x7E)

/-- The pattern occurs in the text at offset `i`, completely inside the text:
`i + len(pattern) ≤ len(text)` and `text[i .. i+len(pattern)) = pattern`. -/
def occurs_at (text pattern : List Byte) (i : Nat) : Prop :=
  i + pattern.length ≤ text.length ∧ (text.drop i).take pattern.length = pattern

instance (text pattern : List Byte) (i : Nat) : Decidable (occurs_at text pattern i) := by
  unfold occurs_at
  infer_instance

/-- The naive scan of the whole text, as the specification words it: the
offsets `i` in `[0, len(T) - len(P)]` with `T[i .. i+len(P)) = P`, ascending. -/
def naive_scan (text pattern : List Byte) : List Nat :=
  (List.range (text.length - pattern.length + 1)).filter
    (fun i => decide ((text.drop i).take pattern.length = pattern))

/-- The bytes of worker `k`'s buffer that `fread` leaves unwritten start with a
NUL: for every worker whose read is cut short by the end of the file, the
buffer byte just after the bytes read was zero before the load. -/
def tail_is_nul (heap : Nat → Nat → Byte) (fileSize patternLength p : Nat) : Prop :=
  ∀ k, k < p → spec_boundary k fileSize p + patternLength ≤ fileSize →
    fileSize < spec_boundary (k + 1) fileSize p + patternLength - 1 →
    heap k (fileSize - spec_boundary k fileSize p) = 0

end Search

/-!
# `search/test.c`: the matcher without the bound test
-/

namespace SearchTest

open Search

/-- Reading `s[k]` from a NUL-terminated buffer: the bytes of the string and its
terminator can be read, a read past the terminator has no result. -/
def readAt (s : List Byte) (k : Nat) : Option Byte :=
  if k ≤ strlen s then some (charAt s k) else none

/-- The inner `for (j ...)` loop of `check_pattern` of `test.c`, with `remaining`
iterations left: it reads `chunk[i + j]` without a bound test and stops at the
first `j` with `pattern[j] != chunk[i + j]`. -/
def inner_loop (chunk pattern : List Byte) (i : Nat) : Nat → Nat → Nat → Option Nat
  | 0, _, count => some count
  | remaining + 1, j, count =>
    (readAt chunk (i + j)).bind (fun c =>
      if charAt pattern j ≠ c then some count
      else inner_loop chunk pattern i remaining (j + 1) (count + 1))

/-- The outer `for (i ...)` loop of `check_pattern` of `test.c`, with `remaining`
iterations left. -/
def outer_loop (chunk pattern : List Byte) : Nat → Nat → ScanState → Option ScanState
  | 0, _, st => some st
  | remaining + 1, i, st =>
    (inner_loop chunk pattern i (strlen pattern) 0 0).bind (fun count =>
      let st1 : ScanState :=
        if count = strlen pattern then
          { st with res := Function.update st.res st.valid st.start_index,
                    valid := st.valid + 1 }
        else st
      outer_loop chunk pattern remaining (i + 1)
        { st1 with start_index := wrapInt (st1.start_index + 1) })

/-- `check_pattern` of `test.c`; there is a result when no read went past the
terminator of the chunk. -/
def check_pattern (res : Nat → Int) (start_index : Int) (chunk pattern : List Byte) :
    Option ScanState :=
  outer_loop chunk pattern (strlen chunk) 0
    { res := res, valid := 0, start_index := wrapInt start_index }

end SearchTest

/-!
# `steadytemp/steady.c`: the split of the rows
-/

namespace Steady

open Search

/-- `number_of_checks` of `steady.c`: all operands are `int`, `/` and `%`
truncate towards zero. -/
def number_of_checks (id size p : Int) : Int :=
  if id < Int.tmod size p then wrapInt (Int.tdiv size p + 1) else Int.tdiv size p

/-- `check` of `main`: the number of chunk rows a process allocates,
`number_of_checks(id, (rows - 2), p)`. -/
def check (id rows p : Int) : Int := number_of_checks id (wrapInt (rows - 2)) p

/-- The row loop `for (i = id + 1; i < rows - 1; i += p)` of `main` together
with the chunk row index `c_row` (set to 0 before the loop, `c_row += 1` at the
end of each iteration).  It yields the pairs (grid row `i`, chunk row `c_row`)
of the iterations in order.  The counter `i` is an `int`, so the loop runs on
`fuel` (one unit per evaluation of the loop test). -/
def row_loop (rows p : Int) : Nat → Int → Nat → List (Int × Nat) → Option (List (Int × Nat))
  | 0, _, _, _ => none
  | fuel + 1, i, c_row, acc =>
    if i < wrapInt (rows - 1) then
      row_loop rows p fuel (wrapInt (i + p)) (c_row + 1) (acc ++ [(i, c_row)])
    else some acc

/-- The iterations of the row loop of process `id`. -/
def visited_rows (fuel : Nat) (id rows p : Int) : Option (List (Int × Nat)) :=
  row_loop rows p fuel (wrapInt (id + 1)) 0 []

/-- `id_has = output_x % p`: the process that holds the requested row
(`output_x` is the row index in the inner grid). -/
def id_has (output_x p : Int) : Int := Int.tmod output_x p

/-- `output_chunk_row = output_x / p`: the chunk row that is read. -/
def output_chunk_row (output_x p : Int) : Int := Int.tdiv output_x p

end Steady

/-!
# `approxnatlog/natlog.c`: the rectangle rule

The `double` arithmetic of `approximate_ln` is replaced by exact rational
arithmetic; the loop counter `i` is an `int` and wraps like every `int`.  The
loop has no bound that a recursion could follow, so it runs on `fuel` (one unit
per evaluation of the loop test); without fuel left there is no result.
-/

namespace Natlog

open Search

/-- The `for (i = id + 1; i <= num_segments; i += p)` loop of `approximate_ln`. -/
def ln_loop (num_segments p : Int) (dx : ℚ) : Nat → Int → ℚ → Option ℚ
  | 0, _, _ => none
  | fuel + 1, i, sum =>
    if i ≤ num_segments then
      ln_loop num_segments p dx fuel (wrapInt (i + p))
        (sum + 1 / (1 + dx * ((i : ℚ) - 1 / 2)))
    else some sum

/-- `approximate_ln` of `natlog.c`: `dx = (upper - 1) / num_segments`, the loop,
then `dx * sum`. -/
def approximate_ln (fuel : Nat) (num_segments id p upper : Int) : Option ℚ :=
  (ln_loop num_segments p (((upper : ℚ) - 1) / (num_segments : ℚ)) fuel
      (wrapInt (id + 1)) 0).map
    (fun sum => ((upper : ℚ) - 1) / (num_segments : ℚ) * sum)

/-- The midpoint rectangle rule as the claim words it:
`dx * sum_{i = 1 .. n} 1 / (1 + dx * (i - 1/2))` with `dx = (upper - 1) / n`. -/
def midpoint_rule (n upper : Nat) : ℚ :=
  (((upper : ℚ) - 1) / (n : ℚ))
    * ∑ i in Finset.Icc 1 n, 1 / (1 + (((upper : ℚ) - 1) / (n : ℚ)) * ((i : ℚ) - 1 / 2))

end Natlog

/-!
# `thread/redact.c`: redaction by threads

The shared arrays `input_text` and `flag` are functions of the index.  Every
thread copies its chunk before the barrier, so it scans the original text; the
only access to the shared arrays after the barrier is inside the critical
section guarded by `update_mutex`.  A run is therefore the sequence of the
critical sections in the order in which the threads took the mutex.
-/

namespace Redact

open Search

/-- `redact_string` of `main`: `0-9 a-z A-Z _` and the blank. -/
def redact_string : List Byte :=
  [48, 49, 50, 51, 52, 53, 54, 55, 56, 57,
   97, 98, 99, 100, 101, 102, 103, 104, 105, 106, 107, 108, 109,
   110, 111, 112, 113, 114, 115, 116, 117, 118, 119, 120, 121, 122,
   65, 66, 67, 68, 69, 70, 71, 72, 73, 74, 75, 76, 77,
   78, 79, 80, 81, 82, 83, 84, 85, 86, 87, 88, 89, 90,
   95, 32]

/-- `thread_data[i].redact_char = redact_string[i % 64]`. -/
def redact_char (id : Int) : Byte := redact_string.getD (Int.tmod id 64).toNat 0

/-- The shared arrays `input_text` and `flag`. -/
@[ext] structure Shared where
  text : Nat → Byte
  flag : Nat → Int

/-- The body of the `for (k ...)` loop of the critical section. -/
def update_cell (id : Int) (st : Shared) (k : Nat) : Shared :=
  if st.flag k = -1 then
    { text := Function.update st.text k (redact_char id),
      flag := Function.update st.flag k id }
  else if st.flag k < id then
    { text := Function.update st.text k (redact_char id),
      flag := Function.update st.flag k id }
  else st

/-- The `for (k = start_index; k < start_index + pattern_length; k++)` loop, with
`remaining` iterations left. -/
def update_loop (id : Int) : Nat → Nat → Shared → Shared
  | 0, _, st => st
  | remaining + 1, k, st => update_loop id remaining (k + 1) (update_cell id st k)

/-- One critical section: the thread `u.1` found the pattern at `start_index =
u.2` and holds the mutex. -/
def apply_section (pattern_length : Nat) (st : Shared) (u : Int × Nat) : Shared :=
  update_loop u.1 pattern_length u.2 st

/-- The cell `k` lies in the match that the section `u` redacts. -/
def covers (pattern_length : Nat) (u : Int × Nat) (k : Nat) : Prop :=
  u.2 ≤ k ∧ k < u.2 + pattern_length

instance (pattern_length : Nat) (u : Int × Nat) (k : Nat) :
    Decidable (covers pattern_length u k) :=
  inferInstanceAs (Decidable (_ ∧ _))

/-- `strncpy(dest, src, n)`: the bytes of the string `src`, at most `n` of them,
padded with NUL up to `n` bytes. -/
def strncpy (src : List Byte) (n : Nat) : List Byte :=
  (cstr src).take n ++ List.replicate (n - ((cstr src).take n).length) 0

/-- The chunk of a thread (`check_pattern` of `redact.c`, before the barrier):
`input_text` is the file content followed by its terminator, `chunk_length` is
an `int`.  In the copying branch every byte of the buffer up to index
`chunk_length` is written, in the other branch the first byte is NUL, so the
content that `malloc` left does not reach the string. -/
def thread_chunk (input pattern : List Byte) (first last file_size : Int) : List Byte :=
  if last - first > 0 ∧ last + (strlen pattern : Int) - 2 < file_size then
    strncpy ((input ++ [0]).drop first.toNat)
      (wrapInt ((last - first) + (strlen pattern : Int))).toNat ++ [0]
  else [0]

/-- The scan of a thread, with `remaining` iterations of the outer loop left: the
inner loop is the one of `search.c`, and `acc` collects the values of
`start_index` at which the thread enters the critical section. -/
def scan_loop (chunk pattern : List Byte) : Nat → Nat → Int → List Int → List Int
  | 0, _, _, acc => acc
  | remaining + 1, i, start_index, acc =>
    scan_loop chunk pattern remaining (i + 1) (wrapInt (start_index + 1))
      (if Search.inner_loop chunk pattern i (strlen pattern) 0 0 = strlen pattern
       then acc ++ [start_index] else acc)

/-- The critical sections of thread `i` in program order, as pairs
`(id, start_index)`; `first`, `last` are those set up by `main`, the field
`file_size` of `task_data` is an `int`.  `start_index` starts at `first ≥ 0` and
indexes the arrays, so it is kept as a natural number. -/
def thread_sections (num_threads : Nat) (pattern input : List Byte) (i : Nat) :
    List (Int × Nat) :=
  (scan_loop
      (thread_chunk input pattern (thread_first i input.length num_threads)
        (thread_last i input.length num_threads) (wrapInt input.length))
      pattern
      (strlen (thread_chunk input pattern (thread_first i input.length num_threads)
        (thread_last i input.length num_threads) (wrapInt input.length)))
      0 (wrapInt (thread_first i input.length num_threads)) []).map
    (fun s => ((i : Int), s.toNat))

/-- The shared arrays when the threads start: the file content followed by NUL
bytes, every flag `-1`. -/
def initial (input : List Byte) : Shared :=
  { text := fun k => input.getD k 0, flag := fun _ => -1 }

/-- The critical sections of all threads, thread after thread. -/
def all_sections (num_threads : Nat) (pattern input : List Byte) : List (Int × Nat) :=
  ((List.range num_threads).map (thread_sections num_threads pattern input)).flatten

/-- The shared arrays after the critical sections `schedule` ran in that
order. -/
def run_schedule (pattern input : List Byte) (schedule : List (Int × Nat)) : Shared :=
  schedule.foldl (apply_section (strlen pattern)) (initial input)

/-- The text written to the output file (`fprintf(output, "%s", input_text)`)
when the threads take the mutex thread after thread. -/
def redact_main (num_threads : Nat) (pattern input : List Byte) : List Byte :=
  cstr ((List.range input.length).map
    (run_schedule pattern input (all_sections num_threads pattern input)).text)

end Redact

namespace Search

/-! ## Arithmetic of the split -/

theorem wrapInt_of_range {x : Int} (h1 : -2147483648 ≤ x) (h2 : x ≤ 2147483647) :
    wrapInt x = x := by
  unfold wrapInt
  omega

theorem wrapInt_range (x : Int) : -2147483648 ≤ wrapInt x ∧ wrapInt x ≤ 2147483647 := by
  unfold wrapInt
  omega

theorem spec_boundary_mono (total p : Nat) {i j : Nat} (h : i ≤ j) :
    spec_boundary i total p ≤ spec_boundary j total p := by
  unfold spec_boundary
  exact Nat.div_le_div_right (Nat.mul_le_mul_right total h)

theorem spec_boundary_zero (total p : Nat) : spec_boundary 0 total p = 0 := by
  simp [spec_boundary]

theorem spec_boundary_last (total p : Nat) (hp : 0 < p) : spec_boundary p total p = total := by
  unfold spec_boundary
  exact Nat.mul_div_cancel_left total hp

theorem spec_boundary_succ (k total p : Nat) (hp : 0 < p) :
    spec_boundary (k + 1) total p
      = spec_boundary k total p + total / p
        + (if p ≤ k * total % p + total % p then 1 else 0) := by
  unfold spec_boundary
  rw [Nat.succ_mul, Nat.add_div hp]

/-- Where no `int` operation overflows, `number_of_char` is the difference of two
consecutive boundaries. -/
theorem number_of_char_eq (id total p : Nat) (hid : id < p)
    (hp : p ≤ 2147483647) (hfit : p * total ≤ 2147483647) :
    number_of_char id total p
      = ((spec_boundary (id + 1) total p - spec_boundary id total p : Nat) : Int) := by
  have hp0 : 0 < p := by omega
  have h1 : (id + 1) * total ≤ p * total := Nat.mul_le_mul_right total hid
  have h2 : id * total ≤ (id + 1) * total := Nat.mul_le_mul_right total (Nat.le_succ id)
  have hm : spec_boundary id total p ≤ spec_boundary (id + 1) total p :=
    spec_boundary_mono total p (Nat.le_succ id)
  have hle : spec_boundary (id + 1) total p ≤ (id + 1) * total := Nat.div_le_self _ _
  unfold number_of_char
  have e1 : wrapInt ((id : Int) + 1) = ((id + 1 : Nat) : Int) := by
    rw [wrapInt_of_range] <;> push_cast <;> omega
  have e2 : wrapInt (((id + 1 : Nat) : Int) * (total : Int)) = (((id + 1) * total : Nat) : Int) := by
    rw [← Nat.cast_mul, wrapInt_of_range] <;> omega
  have e3 : wrapInt ((id : Int) * (total : Int)) = ((id * total : Nat) : Int) := by
    rw [← Nat.cast_mul, wrapInt_of_range] <;> omega
  rw [e1, e2, e3, ← Int.ofNat_tdiv, ← Int.ofNat_tdiv]
  change wrapInt (((spec_boundary (id + 1) total p : Nat) : Int) - ((spec_boundary id total p : Nat) : Int)) = _
  rw [wrapInt_of_range] <;> omega

theorem num_elements_eq (total p : Nat) (hp : p ≤ 2147483647) (hfit : p * total ≤ 2147483647)
    (i : Nat) (hi : i ≤ p) :
    num_elements total p i = (spec_boundary i total p : Int) := by
  induction i with
  | zero => simp [num_elements, spec_boundary_zero]
  | succ k ih =>
    have hm : spec_boundary k total p ≤ spec_boundary (k + 1) total p :=
      spec_boundary_mono total p (Nat.le_succ k)
    rw [num_elements, ih (by omega), number_of_char_eq k total p (by omega) hp hfit]
    omega

/-- A point below the last boundary lies in one of the ranges. -/
theorem exists_range_of_lt (total p : Nat) (n : Nat) (x : Nat)
    (hx : x < spec_boundary n total p) :
    ∃ k, k < n ∧ spec_boundary k total p ≤ x ∧ x < spec_boundary (k + 1) total p := by
  induction n with
  | zero => simp [spec_boundary_zero] at hx
  | succ m ih =>
    by_cases h : x < spec_boundary m total p
    · obtain ⟨k, hk, h1, h2⟩ := ih h
      exact ⟨k, by omega, h1, h2⟩
    · exact ⟨m, by omega, by omega, hx⟩

/-- The number of workers below `n` that get one byte more than `total / p`. -/
theorem spec_boundary_count (total p : Nat) (hp : 0 < p) (n : Nat) :
    spec_boundary n total p
      = n * (total / p)
        + ((List.range n).filter (fun k => decide (p ≤ k * total % p + total % p))).length := by
  induction n with
  | zero => simp [spec_boundary_zero]
  | succ m ih =>
    rw [spec_boundary_succ m total p hp, ih, List.range_succ, List.filter_append]
    by_cases h : p ≤ m * total % p + total % p
    · simp [h, Nat.succ_mul]; omega
    · simp [h, Nat.succ_mul]; omega


/-- The boundaries computed by `redact.c` are those of the formula. -/
theorem thread_range_eq (id total p : Nat) (hid : id < p)
    (hp : p ≤ 2147483647) (hfit : p * total ≤ 2147483647) :
    thread_first id total p = (spec_boundary id total p : Int)
    ∧ thread_last id total p = (spec_boundary (id + 1) total p : Int) := by
  have h1 : (id + 1) * total ≤ p * total := Nat.mul_le_mul_right total hid
  have h2 : id * total ≤ (id + 1) * total := Nat.mul_le_mul_right total (Nat.le_succ id)
  have hw : ∀ x : Nat, x ≤ 2147483647 → wrapMax (x : Int) = (x : Int) := by
    intro x hx
    unfold wrapMax
    omega
  unfold thread_first thread_last spec_boundary
  have e1 : wrapInt ((id : Int) + 1) = ((id + 1 : Nat) : Int) := by
    rw [wrapInt_of_range] <;> push_cast <;> omega
  rw [e1, ← Nat.cast_mul, ← Nat.cast_mul, hw _ (by omega), hw _ (by omega),
    ← Int.ofNat_tdiv, ← Int.ofNat_tdiv]
  exact ⟨rfl, rfl⟩

/-! ## C strings -/

theorem cstr_of_nul_free {s : List Byte} (h : nul_free s) : cstr s = s := by
  unfold cstr
  rw [List.takeWhile_eq_self_iff]
  intro b hb
  simpa using h b hb

theorem strlen_of_nul_free {s : List Byte} (h : nul_free s) : strlen s = s.length := by
  show (cstr s).length = s.length
  rw [cstr_of_nul_free h]

theorem charAt_cstr (s : List Byte) (k : Nat) (hk : k < strlen s) :
    charAt s k = (cstr s).getD k 0 := by
  have hs : s = cstr s ++ s.dropWhile (fun b => b != 0) :=
    (List.takeWhile_append_dropWhile _ s).symm
  unfold charAt
  conv_lhs => rw [hs]
  exact List.getD_append _ _ _ _ hk

/-- Occurrence of a pattern, read index by index. -/
theorem occurs_at_iff (text pattern : List Byte) (i : Nat) :
    occurs_at text pattern i ↔
      i ≤ text.length ∧
        ∀ k, k < pattern.length → i + k < text.length ∧ pattern.getD k 0 = text.getD (i + k) 0 := by
  unfold occurs_at
  constructor
  · rintro ⟨hb, he⟩
    refine ⟨by omega, fun k hk => ⟨by omega, ?_⟩⟩
    have h1 : pattern.getD k 0 = ((text.drop i).take pattern.length).getD k 0 := by rw [he]
    rw [h1, List.getD_eq_getElem _ _ (by simp; omega), List.getD_eq_getElem _ _ (by omega)]
    simp
  · rintro ⟨hi, h⟩
    have hb : i + pattern.length ≤ text.length := by
      rcases Nat.eq_zero_or_pos pattern.length with h0 | hpos
      · omega
      · have := (h (pattern.length - 1) (by omega)).1
        omega
    refine ⟨hb, ?_⟩
    apply List.ext_getElem
    · simp; omega
    · intro k h1 h2
      have := (h k h2).2
      rw [List.getD_eq_getElem _ _ h2, List.getD_eq_getElem _ _ (by omega)] at this
      simp [this]

/-! ## The matcher `check_pattern` -/

theorem inner_loop_eq_iff (chunk pattern : List Byte) (i : Nat) :
    ∀ r j c, inner_loop chunk pattern i r j c = c + r ↔
      ∀ k, k < r → i + (j + k) < strlen chunk
        ∧ charAt pattern (j + k) = charAt chunk (i + (j + k)) := by
  have hge : ∀ r j c, c ≤ inner_loop chunk pattern i r j c := by
    intro r
    induction r with
    | zero => intro j c; simp [inner_loop]
    | succ r ih =>
      intro j c
      rw [inner_loop]
      split
      · exact Nat.le_refl c
      · exact Nat.le_trans (Nat.le_succ c) (ih (j + 1) (c + 1))
  have hle : ∀ r j c, inner_loop chunk pattern i r j c ≤ c + r := by
    intro r
    induction r with
    | zero => intro j c; simp [inner_loop]
    | succ r ih =>
      intro j c
      rw [inner_loop]
      split
      · omega
      · have := ih (j + 1) (c + 1)
        omega
  intro r
  induction r with
  | zero => intro j c; simp [inner_loop]
  | succ r ih =>
    intro j c
    rw [inner_loop]
    split
    · rename_i hstop
      constructor
      · intro h
        omega
      · intro h
        have h0 := h 0 (Nat.succ_pos r)
        rw [Nat.add_zero] at h0
        rcases hstop with hs | hs
        · omega
        · exact absurd h0.2 hs
    · rename_i hgo
      have hgo1 : i + j < strlen chunk := by
        by_contra hc
        exact hgo (Or.inl (by omega))
      have hgo2 : charAt pattern j = charAt chunk (i + j) := by
        by_contra hc
        exact hgo (Or.inr hc)
      rw [show c + (r + 1) = (c + 1) + r by omega, ih (j + 1) (c + 1)]
      constructor
      · intro h k hk
        rcases Nat.eq_zero_or_pos k with h0 | hpos
        · subst h0
          exact ⟨hgo1, hgo2⟩
        · have := h (k - 1) (by omega)
          rw [show j + 1 + (k - 1) = j + k by omega] at this
          exact this
      · intro h k hk
        have := h (k + 1) (by omega)
        rw [show j + (k + 1) = j + 1 + k by omega] at this
        exact this

/-- The test `count == strlen(pattern)` of `check_pattern` succeeds at `i` exactly
when the C string of the pattern occurs at `i` in the C string of the chunk. -/
theorem inner_loop_match_iff (chunk pattern : List Byte) (i : Nat) (hi : i ≤ strlen chunk) :
    inner_loop chunk pattern i (strlen pattern) 0 0 = strlen pattern ↔
      occurs_at (cstr chunk) (cstr pattern) i := by
  have h := inner_loop_eq_iff chunk pattern i (strlen pattern) 0 0
  rw [Nat.zero_add] at h
  rw [h, occurs_at_iff]
  constructor
  · intro hk
    refine ⟨hi, fun k hkp => ?_⟩
    have := hk k hkp
    rw [Nat.zero_add] at this
    refine ⟨this.1, ?_⟩
    rw [← charAt_cstr pattern k hkp, ← charAt_cstr chunk (i + k) this.1]
    exact this.2
  · rintro ⟨_, hk⟩ k hkp
    have := hk k hkp
    rw [Nat.zero_add]
    refine ⟨this.1, ?_⟩
    rw [charAt_cstr pattern k hkp, charAt_cstr chunk (i + k) this.1]
    exact this.2

theorem reported_write (res : Nat → Int) (valid : Nat) (s t v : Int) :
    reported { res := Function.update res valid v, valid := valid + 1, start_index := t }
      = reported { res := res, valid := valid, start_index := s } ++ [v] := by
  unfold reported
  simp only [List.range_succ, List.map_append, List.map_cons, List.map_nil,
    Function.update_same]
  congr 1
  apply List.map_congr_left
  intro k hk
  have : k ≠ valid := by
    have := List.mem_range.mp hk
    omega
  simp [Function.update_noteq this]

theorem wrapInt_succ (s : Int) (d : Int) : wrapInt (wrapInt (s + 1) + d) = wrapInt (s + (d + 1)) := by
  unfold wrapInt
  omega

theorem wrapInt_idem (s : Int) : wrapInt (wrapInt s) = wrapInt s := by
  unfold wrapInt
  omega

/-- Invariant of the outer loop: it appends to `res`, in scan order, the running
start index of every position at which the inner loop counted a full match. -/
theorem outer_loop_spec (chunk pattern : List Byte) :
    ∀ r i (st : ScanState), wrapInt st.start_index = st.start_index →
      reported (outer_loop chunk pattern r i st)
          = reported st ++
            ((List.range' i r).filter
                (fun k => decide (inner_loop chunk pattern k (strlen pattern) 0 0
                                    = strlen pattern))).map
              (fun k => wrapInt (st.start_index + ((k - i : Nat) : Int)))
      ∧ (outer_loop chunk pattern r i st).valid
          = st.valid + ((List.range' i r).filter
                (fun k => decide (inner_loop chunk pattern k (strlen pattern) 0 0
                                    = strlen pattern))).length := by
  intro r
  induction r with
  | zero => intro i st _; simp [outer_loop]
  | succ r ih =>
    intro i st hst
    rw [outer_loop, List.range'_succ]
    have hmap : ∀ (s : Int) (l : List Nat), (∀ k, k ∈ l → i + 1 ≤ k) →
        l.map (fun k => wrapInt (wrapInt (s + 1) + ((k - (i + 1) : Nat) : Int)))
          = l.map (fun k => wrapInt (s + ((k - i : Nat) : Int))) := by
      intro s l hl
      apply List.map_congr_left
      intro k hk
      have := hl k hk
      rw [wrapInt_succ]
      congr 2
      omega
    have hmem : ∀ k, k ∈ (List.range' (i + 1) r).filter
          (fun k => decide (inner_loop chunk pattern k (strlen pattern) 0 0 = strlen pattern)) →
        i + 1 ≤ k := by
      intro k hk
      have := (List.mem_range'_1.mp (List.mem_filter.mp hk).1).1
      exact this
    by_cases hm : inner_loop chunk pattern i (strlen pattern) 0 0 = strlen pattern
    · simp only [hm, if_true, List.filter_cons, decide_True]
      obtain ⟨h1, h2⟩ := ih (i + 1)
        { res := Function.update st.res st.valid st.start_index, valid := st.valid + 1,
          start_index := wrapInt (st.start_index + 1) } (wrapInt_idem _)
      constructor
      · rw [h1, reported_write st.res st.valid st.start_index _ st.start_index,
          hmap _ _ hmem]
        simp [hst]
      · rw [h2]
        simp
        omega
    · simp only [hm, if_false, List.filter_cons, decide_False]
      obtain ⟨h1, h2⟩ := ih (i + 1)
        { st with start_index := wrapInt (st.start_index + 1) } (wrapInt_idem _)
      constructor
      · rw [h1, hmap _ _ hmem]
        simp [reported]
      · rw [h2]
        simp

/-- What `check_pattern` stores and returns, for arbitrary buffers: the offsets of
the occurrences of the pattern string in the chunk string, in scan order, each
added to `start_index` in `int` arithmetic. -/
theorem check_pattern_spec (res : Nat → Int) (start_index : Int) (chunk pattern : List Byte) :
    reported (check_pattern res start_index chunk pattern)
        = ((List.range (strlen chunk)).filter
              (fun i => decide (occurs_at (cstr chunk) (cstr pattern) i))).map
            (fun (i : Nat) => wrapInt (start_index + (i : Int)))
    ∧ (check_pattern res start_index chunk pattern).valid
        = ((List.range (strlen chunk)).filter
              (fun i => decide (occurs_at (cstr chunk) (cstr pattern) i))).length := by
  have hfilter : (List.range' 0 (strlen chunk)).filter
        (fun k => decide (inner_loop chunk pattern k (strlen pattern) 0 0 = strlen pattern))
      = (List.range (strlen chunk)).filter
        (fun i => decide (occurs_at (cstr chunk) (cstr pattern) i)) := by
    rw [← List.range_eq_range']
    apply List.filter_congr
    intro k hk
    have hk1 := List.mem_range.mp hk
    rw [decide_eq_decide]
    exact inner_loop_match_iff chunk pattern k (Nat.le_of_lt hk1)
  obtain ⟨h1, h2⟩ := outer_loop_spec chunk pattern (strlen chunk) 0
    { res := res, valid := 0, start_index := wrapInt start_index } (wrapInt_idem _)
  unfold check_pattern
  rw [h1, h2, hfilter]
  constructor
  · have h0 : reported { res := res, valid := 0, start_index := wrapInt start_index } = [] := by
      simp [reported]
    rw [h0, List.nil_append]
    apply List.map_congr_left
    intro k _
    simp only [Nat.sub_zero]
    unfold wrapInt
    omega
  · simp

/-! ## The pattern filter of `main` -/

theorem filter_test_iff (b : Byte) :
    (charToInt b ≥ 32 ∧ charToInt b ≤ 126) ↔ printable b = true := by
  have hb := b.isLt
  unfold charToInt printable
  split <;> simp
  omega

theorem filter_loop_spec (temp : List Byte) :
    ∀ r i (acc : List Byte), i + r = strlen temp →
      filter_loop temp r i acc = acc ++ ((cstr temp).drop i).filter printable := by
  intro r
  induction r with
  | zero =>
    intro i acc h
    have : (cstr temp).drop i = [] := List.drop_eq_nil_of_le (by
      show (cstr temp).length ≤ i
      have : strlen temp = (cstr temp).length := rfl
      omega)
    simp [filter_loop, this]
  | succ r ih =>
    intro i acc h
    have hi : i < (cstr temp).length := by
      have : strlen temp = (cstr temp).length := rfl
      omega
    have hd : (cstr temp).drop i = charAt temp i :: (cstr temp).drop (i + 1) := by
      rw [charAt_cstr temp i hi, List.getD_eq_getElem _ _ hi]
      exact List.drop_eq_getElem_cons hi
    rw [filter_loop, hd, List.filter_cons]
    by_cases hp : printable (charAt temp i) = true
    · rw [if_pos ((filter_test_iff _).mpr hp), ih (i + 1) _ (by omega), if_pos hp]
      simp
    · rw [if_neg (fun hc => hp ((filter_test_iff _).mp hc)), ih (i + 1) _ (by omega), if_neg hp]

theorem filter_pattern_spec (argv1 : List Byte) :
    filter_pattern argv1 = (cstr argv1).filter printable := by
  unfold filter_pattern
  rw [filter_loop_spec argv1 (strlen argv1) 0 [] (by omega)]
  simp

theorem filter_pattern_nul_free (argv1 : List Byte) : nul_free (filter_pattern argv1) := by
  intro b hb
  rw [filter_pattern_spec] at hb
  have hp := (List.mem_filter.mp hb).2
  intro h0
  subst h0
  simp [printable] at hp

/-! ## The chunk loaded by the root -/

theorem length_malloc_block (garbage : Nat → Byte) (size : Nat) :
    (malloc_block garbage size).length = size := by
  simp [malloc_block]

theorem cstr_nul_free (s : List Byte) : nul_free (cstr s) := by
  intro b hb
  have := List.mem_takeWhile_imp hb
  simpa using this

theorem cstr_append_of_nul_free {a : List Byte} (h : nul_free a) (b : List Byte) :
    cstr (a ++ b) = a ++ cstr b := by
  unfold cstr
  apply List.takeWhile_append_of_pos
  intro x hx
  simpa using h x hx

/-- A terminator written at index `idx` bounds the length of the string. -/
theorem strlen_set_zero_le (l : List Byte) (idx : Nat) (h : idx < l.length) :
    strlen (l.set idx 0) ≤ idx := by
  have hs : l.set idx 0 = l.take idx ++ (0 : Byte) :: l.drop (idx + 1) := by
    rw [List.set_eq_take_append_cons_drop, if_pos h]
  unfold strlen
  rw [hs, List.takeWhile_append]
  split
  · simp
  · have := (List.takeWhile_sublist (fun b : Byte => b != 0) (l := l.take idx)).length_le
    simp at this
    omega

theorem cstr_set_zero_zero (l : List Byte) : cstr (l.set 0 0) = [] := by
  cases l with
  | nil => simp [cstr]
  | cons x xs => simp [cstr]

theorem cstr_set_of_head_zero (l : List Byte) (idx : Nat) (h0 : l.getD 0 1 = 0) :
    cstr (l.set idx 0) = [] := by
  cases l with
  | nil => simp [cstr]
  | cons x xs =>
    simp at h0
    subst h0
    cases idx <;> simp [cstr]

/-- The chunk string never has more than `local_check + pattern_length - 1`
bytes, whatever the buffer held before. -/
theorem strlen_load_chunk_le (buf file : List Byte) (start n m : Nat)
    (hbuf : buf.length = n + m + 1) :
    strlen (load_chunk buf file start n m) ≤ n + m - 1 := by
  unfold load_chunk
  apply strlen_set_zero_le
  split
  · simp
    omega
  · unfold fread
    simp
    omega

/-- The branch `num_elements + pattern_length > file_size`: the chunk is the
empty string. -/
theorem cstr_load_chunk_empty (buf file : List Byte) (start n m : Nat)
    (hover : start + m > file.length) :
    cstr (load_chunk buf file start n m) = [] := by
  unfold load_chunk
  rw [if_pos hover]
  cases buf with
  | nil => simp [cstr]
  | cons x xs =>
    apply cstr_set_of_head_zero
    simp

/-- The branch that reads: the chunk string starts with the bytes that `fread`
delivered; what follows them (`junk`) is what the buffer held before, up to the
terminator, and is empty when the read was complete or when the first unread
byte of the buffer is NUL. -/
theorem cstr_load_chunk_read (buf file : List Byte) (start n m : Nat)
    (hbuf : buf.length = n + m + 1) (hfile : nul_free file)
    (hfit : start + m ≤ file.length) :
    ∃ junk : List Byte,
      cstr (load_chunk buf file start n m) = (file.drop start).take (n + m - 1) ++ junk
      ∧ nul_free junk
      ∧ ((file.drop start).take (n + m - 1)).length + junk.length ≤ n + m - 1
      ∧ (((file.drop start).take (n + m - 1)).length = n + m - 1
          ∨ buf.getD ((file.drop start).take (n + m - 1)).length 1 = 0 → junk = []) := by
  have hdata : nul_free ((file.drop start).take (n + m - 1)) := by
    intro b hb
    exact hfile b (List.mem_of_mem_drop (List.mem_of_mem_take hb))
  have hd : ((file.drop start).take (n + m - 1)).length ≤ n + m - 1 := by
    simp
  generalize hdef : (file.drop start).take (n + m - 1) = data at hdata hd
  have hload : load_chunk buf file start n m
      = data ++ (buf.drop data.length).set (n + m - 1 - data.length) 0 := by
    unfold load_chunk fread
    rw [if_neg (by omega), hdef, List.set_append_right _ _ hd]
  refine ⟨cstr ((buf.drop data.length).set (n + m - 1 - data.length) 0), ?_, ?_, ?_, ?_⟩
  · rw [hload, cstr_append_of_nul_free hdata]
  · exact cstr_nul_free _
  · have := strlen_set_zero_le (buf.drop data.length) (n + m - 1 - data.length)
      (by simp; omega)
    unfold strlen at this
    unfold cstr
    omega
  · intro h
    rcases h with h | h
    · rw [h, Nat.sub_self]
      exact cstr_set_zero_zero _
    · apply cstr_set_of_head_zero
      rw [← h]
      simp [List.getD_eq_getElem?_getD]

/-! ## The run over all workers -/

theorem run_from_inv (heap : Nat → Nat → Byte) (file pattern : List Byte) (p : Nat) :
    ∀ r id outs,
      run_from heap file pattern p r id (num_elements (wrapInt file.length) p id) = some outs →
      (∀ k, id ≤ k → k < id + r → ∃ o, worker_out heap file pattern p k = some o)
      ∧ outs = (List.range' id r).map (fun k => (worker_out heap file pattern p k).getD []) := by
  intro r
  induction r with
  | zero =>
    intro id outs h
    rw [run_from] at h
    refine ⟨fun k h1 h2 => by omega, ?_⟩
    simp at h
    simp [h]
  | succ r ih =>
    intro id outs h
    rw [run_from] at h
    have hS : num_elements (wrapInt file.length) p id
        + number_of_char id (wrapInt file.length) p
        = num_elements (wrapInt file.length) p (id + 1) := by
      rw [num_elements]
    rw [hS] at h
    change (worker_out heap file pattern p id).bind _ = some outs at h
    obtain ⟨o, hwo, h⟩ := Option.bind_eq_some.mp h
    obtain ⟨rest, hr, h⟩ := Option.map_eq_some'.mp h
    obtain ⟨h1, h2⟩ := ih (id + 1) rest hr
    constructor
    · intro k hk1 hk2
      by_cases hk : k = id
      · subst hk
        exact ⟨o, hwo⟩
      · exact h1 k (by omega) (by omega)
    · rw [← h, List.range'_succ, List.map_cons, hwo, h2]
      rfl

theorem run_from_some (heap : Nat → Nat → Byte) (file pattern : List Byte) (p : Nat) :
    ∀ r id,
      (∀ k, id ≤ k → k < id + r → ∃ o, worker_out heap file pattern p k = some o) →
      run_from heap file pattern p r id (num_elements (wrapInt file.length) p id)
        = some ((List.range' id r).map
            (fun k => (worker_out heap file pattern p k).getD [])) := by
  intro r
  induction r with
  | zero => intro id _; rw [run_from]; rfl
  | succ r ih =>
    intro id h
    rw [run_from]
    have hS : num_elements (wrapInt file.length) p id
        + number_of_char id (wrapInt file.length) p
        = num_elements (wrapInt file.length) p (id + 1) := by
      rw [num_elements]
    rw [hS, ih (id + 1) (fun k h1 h2 => h k (by omega) (by omega))]
    obtain ⟨o, ho⟩ := h id (Nat.le_refl id) (by omega)
    change (worker_out heap file pattern p id).bind _ = _
    rw [ho, List.range'_succ, List.map_cons, ho]
    rfl

/-! ## Ranges of the running total in `int` arithmetic -/

theorem tdiv_bound (x p : Int) (h1 : -2147483648 ≤ x) (h2 : x ≤ 2147483647) (hp : 2 ≤ p) :
    -1073741824 ≤ x.tdiv p ∧ x.tdiv p ≤ 1073741823 := by
  obtain ⟨b, rfl⟩ : ∃ b : Nat, p = (b : Int) := ⟨p.toNat, by omega⟩
  have hb : 2 ≤ b := by omega
  obtain ⟨a, ha | ha⟩ := Int.eq_nat_or_neg x
  · subst ha
    rw [← Int.ofNat_tdiv]
    have := Nat.div_le_div_left (a := a) hb (by decide)
    generalize a / b = q at this ⊢
    omega
  · subst ha
    rw [Int.neg_tdiv, ← Int.ofNat_tdiv]
    have := Nat.div_le_div_left (a := a) hb (by decide)
    generalize a / b = q at this ⊢
    omega

theorem num_elements_nonneg (t : Int) (p : Nat)
    (hnn : ∀ k, k < p → 0 ≤ number_of_char k t p) :
    ∀ k, k ≤ p → 0 ≤ num_elements t p k := by
  intro k
  induction k with
  | zero => intro _; simp [num_elements]
  | succ k ih =>
    intro hk
    rw [num_elements]
    have := ih (by omega)
    have := hnn k (by omega)
    omega

theorem num_elements_mono (t : Int) (p : Nat)
    (hnn : ∀ k, k < p → 0 ≤ number_of_char k t p) (j : Nat) :
    ∀ k, j ≤ k → k ≤ p → num_elements t p j ≤ num_elements t p k := by
  intro k
  induction k with
  | zero =>
    intro h _
    have : j = 0 := by omega
    subst this
    exact Int.le_refl _
  | succ k ih =>
    intro hjk hk
    by_cases h : j = k + 1
    · subst h
      exact Int.le_refl _
    · have h1 := ih (by omega) (by omega)
      have h2 := hnn k (by omega)
      rw [num_elements]
      omega

/-- With at least two workers every boundary quotient is below `2^30` in
absolute value, so the running total is the quotient itself. -/
theorem num_elements_closed (t : Int) (p : Nat) (hp2 : 2 ≤ p) (hp : p ≤ 2147483647) :
    ∀ k, k ≤ p → num_elements t p k = Int.tdiv (wrapInt ((k : Int) * t)) p := by
  intro k
  induction k with
  | zero =>
    intro _
    have h0 : wrapInt (((0 : Nat) : Int) * t) = 0 := by
      rw [Nat.cast_zero, Int.zero_mul]
      decide
    rw [h0, num_elements, Int.zero_tdiv]
  | succ k ih =>
    intro hk
    rw [num_elements, ih (by omega)]
    unfold number_of_char
    have e1 : wrapInt ((k : Int) + 1) = ((k + 1 : Nat) : Int) := by
      rw [wrapInt_of_range] <;> push_cast <;> omega
    rw [e1]
    have b1 := tdiv_bound (wrapInt (((k + 1 : Nat) : Int) * t)) p
      (wrapInt_range _).1 (wrapInt_range _).2 (by omega)
    have b2 := tdiv_bound (wrapInt ((k : Int) * t)) p
      (wrapInt_range _).1 (wrapInt_range _).2 (by omega)
    have hw : wrapInt (Int.tdiv (wrapInt (((k + 1 : Nat) : Int) * t)) p
          - Int.tdiv (wrapInt ((k : Int) * t)) p)
        = Int.tdiv (wrapInt (((k + 1 : Nat) : Int) * t)) p
          - Int.tdiv (wrapInt ((k : Int) * t)) p :=
      wrapInt_of_range (by omega) (by omega)
    rw [hw]
    omega

theorem num_elements_le_max (t : Int) (p : Nat) (hp1 : 1 ≤ p) (hp : p ≤ 2147483647) :
    ∀ k, k ≤ p → num_elements t p k ≤ 2147483647 := by
  intro k hk
  by_cases hp2 : 2 ≤ p
  · rw [num_elements_closed t p hp2 hp k hk]
    have := tdiv_bound (wrapInt ((k : Int) * t)) p
      (wrapInt_range _).1 (wrapInt_range _).2 (by omega)
    omega
  · have hp1e : p = 1 := by omega
    subst hp1e
    have hk01 : k = 0 ∨ k = 1 := by omega
    rcases hk01 with h | h
    · subst h
      simp [num_elements]
    · subst h
      rw [num_elements, num_elements]
      have := (wrapInt_range (Int.tdiv (wrapInt (wrapInt (((0 : Nat) : Int) + 1) * t)) ((1 : Nat) : Int)
           - Int.tdiv (wrapInt (((0 : Nat) : Int) * t)) ((1 : Nat) : Int))).2
      unfold number_of_char
      omega

/-! ## What one worker reports -/

theorem worker_step_eq (garbage : Nat → Byte) (file pattern : List Byte) (start n : Int)
    (o : List Int) (h : worker_step garbage file pattern start n = some o) :
    o = reported (check_pattern (fun _ => 0) start
          (worker_chunk garbage file pattern start n) pattern) := by
  unfold worker_step at h
  split at h
  · exact absurd h (by simp)
  · injection h with h
    exact h.symm

/-- A worker that produces a result has a non-negative count, and what it
reports are the occurrences of the pattern in its chunk string, each below
`local_check`, shifted by its start index. -/
theorem worker_step_inv (garbage : Nat → Byte) (file pattern : List Byte) (start n : Int)
    (o : List Int) (h : worker_step garbage file pattern start n = some o)
    (hpat : nul_free pattern) :
    0 ≤ n
    ∧ o = ((List.range (strlen (worker_chunk garbage file pattern start n))).filter
            (fun i => decide (occurs_at (cstr (worker_chunk garbage file pattern start n))
                                pattern i))).map
          (fun (i : Nat) => wrapInt (start + (i : Int)))
    ∧ ∀ i, i ∈ (List.range (strlen (worker_chunk garbage file pattern start n))).filter
            (fun i => decide (occurs_at (cstr (worker_chunk garbage file pattern start n))
                                pattern i)) → (i : Int) < n := by
  unfold worker_step at h
  split at h
  · exact absurd h (by simp)
  · rename_i hcond
    have hn : 0 ≤ n := by omega
    have ho : o = reported (check_pattern (fun _ => 0) start
        (worker_chunk garbage file pattern start n) pattern) := by
      injection h with h
      exact h.symm
    have hspec := (check_pattern_spec (fun _ => 0) start
      (worker_chunk garbage file pattern start n) pattern).1
    rw [cstr_of_nul_free hpat] at hspec
    refine ⟨hn, ho.trans hspec, ?_⟩
    intro i hi
    have hocc := of_decide_eq_true (List.mem_filter.mp hi).2
    have hlen : i + pattern.length ≤ (cstr (worker_chunk garbage file pattern start n)).length :=
      hocc.1
    have hle := strlen_load_chunk_le (malloc_block garbage (n.toNat + pattern.length + 1))
      file start.toNat n.toNat pattern.length (length_malloc_block _ _)
    have hle2 : (cstr (worker_chunk garbage file pattern start n)).length
        ≤ n.toNat + pattern.length - 1 := hle
    omega

/-- Where the additions stay inside `int`, a worker's report is strictly
ascending and lies in `[start, start + local_check)`. -/
theorem worker_step_range (garbage : Nat → Byte) (file pattern : List Byte) (start n : Int)
    (o : List Int) (h : worker_step garbage file pattern start n = some o)
    (hpat : nul_free pattern)
    (hs0 : 0 ≤ start) (hs1 : start + n ≤ 2147483648) :
    o.Pairwise (· < ·) ∧ ∀ x, x ∈ o → start ≤ x ∧ x < start + n := by
  obtain ⟨_, ho, hlt⟩ := worker_step_inv garbage file pattern start n o h hpat
  have hw : ∀ i, i ∈ (List.range (strlen (worker_chunk garbage file pattern start n))).filter
            (fun i => decide (occurs_at (cstr (worker_chunk garbage file pattern start n))
                                pattern i)) →
      wrapInt (start + (i : Int)) = start + (i : Int) := by
    intro i hi
    have := hlt i hi
    exact wrapInt_of_range (by omega) (by omega)
  constructor
  · rw [ho, List.pairwise_map]
    have hp : List.Pairwise (· < ·)
        ((List.range (strlen (worker_chunk garbage file pattern start n))).filter
            (fun i => decide (occurs_at (cstr (worker_chunk garbage file pattern start n))
                                pattern i))) :=
      (List.pairwise_lt_range _).filter _
    refine hp.imp_of_mem ?_
    intro a b ha hb hab
    rw [hw a ha, hw b hb]
    omega
  · intro x hx
    rw [ho] at hx
    obtain ⟨i, hi, rfl⟩ := List.mem_map.mp hx
    rw [hw i hi]
    have := hlt i hi
    omega

/-! ## Invariants of a run -/

/-- In a run that produces a result, every worker reports a strictly ascending
list inside its own range, the ranges follow each other, and the result is the
list of the workers' reports in rank order. -/
theorem run_invariants (heap : Nat → Nat → Byte) (file pattern : List Byte) (p : Nat)
    (hpat : nul_free pattern) (hp1 : 1 ≤ p) (hp : p ≤ 2147483647)
    (outs : List (List Int))
    (h : run_from heap file pattern p p 0 0 = some outs) :
    outs = (List.range p).map (fun k => (worker_out heap file pattern p k).getD [])
    ∧ (∀ k, k < p → 0 ≤ number_of_char k (wrapInt file.length) p)
    ∧ (∀ k, k < p →
        ((worker_out heap file pattern p k).getD []).Pairwise (· < ·)
        ∧ ∀ x, x ∈ (worker_out heap file pattern p k).getD [] →
            num_elements (wrapInt file.length) p k ≤ x
            ∧ x < num_elements (wrapInt file.length) p (k + 1)) := by
  have h0 : run_from heap file pattern p p 0 (num_elements (wrapInt file.length) p 0)
      = some outs := h
  obtain ⟨hsome, houts⟩ := run_from_inv heap file pattern p p 0 outs h0
  rw [← List.range_eq_range'] at houts
  have hnn : ∀ k, k < p → 0 ≤ number_of_char k (wrapInt file.length) p := by
    intro k hk
    obtain ⟨o, ho⟩ := hsome k (Nat.zero_le k) (by omega)
    exact (worker_step_inv _ _ _ _ _ o ho hpat).1
  refine ⟨houts, hnn, ?_⟩
  intro k hk
  obtain ⟨o, ho⟩ := hsome k (Nat.zero_le k) (by omega)
  have hs0 := num_elements_nonneg (wrapInt file.length) p hnn k (by omega)
  have hs1 := num_elements_le_max (wrapInt file.length) p hp1 hp (k + 1) (by omega)
  have hstep : num_elements (wrapInt file.length) p (k + 1)
      = num_elements (wrapInt file.length) p k
        + number_of_char k (wrapInt file.length) p := by
    rw [num_elements]
  have := worker_step_range (heap k) file pattern _ _ o ho hpat hs0 (by omega)
  rw [ho, hstep]
  exact this

theorem wrapInt_length (file : List Byte) (p : Nat) (hp1 : 1 ≤ p)
    (hfit : p * file.length ≤ 2147483647) :
    wrapInt (file.length : Int) = (file.length : Int) := by
  have : file.length ≤ p * file.length := Nat.le_mul_of_pos_left _ hp1
  exact wrapInt_of_range (by omega) (by omega)

/-- Where `p * len(file)` fits an `int`, worker `k` produces a result: the
occurrences in its chunk string, shifted by `floor(k * len / p)`. -/
theorem worker_out_defined (heap : Nat → Nat → Byte) (file pattern : List Byte) (p : Nat)
    (hm : 1 ≤ pattern.length) (hp1 : 1 ≤ p) (hp : p ≤ 2147483647)
    (hfit : p * file.length ≤ 2147483647) (k : Nat) (hk : k < p) :
    ∃ o, worker_out heap file pattern p k = some o := by
  unfold worker_out worker_step
  rw [wrapInt_length file p hp1 hfit, number_of_char_eq k file.length p hk hp hfit]
  rw [if_neg (by omega)]
  exact ⟨_, rfl⟩

theorem run_defined (heap : Nat → Nat → Byte) (file pattern : List Byte) (p : Nat)
    (hm : 1 ≤ pattern.length) (hp1 : 1 ≤ p) (hp : p ≤ 2147483647)
    (hfit : p * file.length ≤ 2147483647) :
    run_from heap file pattern p p 0 0
      = some ((List.range p).map (fun k => (worker_out heap file pattern p k).getD [])) := by
  have h := run_from_some heap file pattern p p 0
    (fun k _ hk => worker_out_defined heap file pattern p hm hp1 hp hfit k (by omega))
  rw [← List.range_eq_range'] at h
  exact h

/-! ## Occurrences seen through a chunk -/

/-- An occurrence inside a window of the text is an occurrence in the text. -/
theorem occurs_at_window (text pattern : List Byte) (b K i : Nat)
    (hm : 1 ≤ pattern.length) (hi : i + pattern.length ≤ K) :
    occurs_at ((text.drop b).take K) pattern i ↔ occurs_at text pattern (b + i) := by
  unfold occurs_at
  have hcontent : (((text.drop b).take K).drop i).take pattern.length
      = (text.drop (b + i)).take pattern.length := by
    rw [List.drop_take, List.drop_drop, List.take_take, Nat.min_eq_left (by omega)]
  rw [hcontent]
  simp only [List.length_take, List.length_drop]
  constructor
  · rintro ⟨h1, h2⟩
    exact ⟨by omega, h2⟩
  · rintro ⟨h1, h2⟩
    exact ⟨by omega, h2⟩

/-- Bytes after the window do not destroy an occurrence. -/
theorem occurs_at_append (a junk pattern : List Byte) (i : Nat)
    (h : occurs_at a pattern i) : occurs_at (a ++ junk) pattern i := by
  unfold occurs_at at h ⊢
  obtain ⟨h1, h2⟩ := h
  refine ⟨by simp; omega, ?_⟩
  rw [List.drop_append_of_le_length (by omega), List.take_append_of_le_length (by simp; omega)]
  exact h2

/-! ## The workers where `p * len(file)` fits an `int` -/

/-- The chunk of worker `k` in natural-number coordinates. -/
theorem worker_out_eq (heap : Nat → Nat → Byte) (file pattern : List Byte) (p : Nat)
    (hpat : nul_free pattern) (hm : 1 ≤ pattern.length) (hp1 : 1 ≤ p) (hp : p ≤ 2147483647)
    (hfit : p * file.length ≤ 2147483647) (k : Nat) (hk : k < p) :
    worker_out heap file pattern p k
      = some (((List.range (strlen
            (load_chunk (malloc_block (heap k)
                (spec_boundary (k + 1) file.length p - spec_boundary k file.length p
                  + pattern.length + 1))
              file (spec_boundary k file.length p)
              (spec_boundary (k + 1) file.length p - spec_boundary k file.length p)
              pattern.length))).filter
          (fun i => decide (occurs_at (cstr
            (load_chunk (malloc_block (heap k)
                (spec_boundary (k + 1) file.length p - spec_boundary k file.length p
                  + pattern.length + 1))
              file (spec_boundary k file.length p)
              (spec_boundary (k + 1) file.length p - spec_boundary k file.length p)
              pattern.length)) pattern i))).map
          (fun (i : Nat) => ((spec_boundary k file.length p + i : Nat) : Int))) := by
  obtain ⟨o, ho⟩ := worker_out_defined heap file pattern p hm hp1 hp hfit k hk
  have hinv := worker_step_inv (heap k) file pattern _ _ o ho hpat
  rw [ho, hinv.2.1]
  have hS := num_elements_eq file.length p hp hfit k (Nat.le_of_lt hk)
  have hN := number_of_char_eq k file.length p hk hp hfit
  have hL := wrapInt_length file p hp1 hfit
  have hb : spec_boundary (k + 1) file.length p ≤ file.length := by
    have := spec_boundary_mono file.length p (show k + 1 ≤ p from hk)
    rw [spec_boundary_last file.length p hp1] at this
    exact this
  have hmono : spec_boundary k file.length p ≤ spec_boundary (k + 1) file.length p :=
    spec_boundary_mono file.length p (Nat.le_succ k)
  have hfl : file.length ≤ 2147483647 := by
    have : file.length ≤ p * file.length := Nat.le_mul_of_pos_left _ hp1
    omega
  have hchunk : worker_chunk (heap k) file pattern
        (num_elements (wrapInt file.length) p k) (number_of_char k (wrapInt file.length) p)
      = load_chunk (malloc_block (heap k)
          (spec_boundary (k + 1) file.length p - spec_boundary k file.length p
            + pattern.length + 1))
        file (spec_boundary k file.length p)
        (spec_boundary (k + 1) file.length p - spec_boundary k file.length p)
        pattern.length := by
    unfold worker_chunk
    rw [hL, hS, hN, Int.toNat_ofNat, Int.toNat_ofNat]
  rw [hchunk] at hinv ⊢
  refine congrArg some (List.map_congr_left ?_)
  intro i hi
  have hlt := hinv.2.2 i hi
  rw [hL, hN] at hlt
  rw [hL, hS]
  rw [wrapInt_of_range (by omega) (by omega)]
  push_cast
  rfl

theorem getD_malloc_block (garbage : Nat → Byte) (size idx : Nat) (d : Byte) (h : idx < size) :
    (malloc_block garbage size).getD idx d = garbage idx := by
  unfold malloc_block
  rw [List.getD_eq_getElem _ _ (by simp; exact h)]
  simp

/-- Completeness of one worker, whatever its buffer held before: an occurrence
of the pattern in the text that starts inside the worker's range is reported. -/
theorem worker_finds (heap : Nat → Nat → Byte) (file pattern : List Byte) (p : Nat)
    (hfile : nul_free file) (hpat : nul_free pattern) (hm : 1 ≤ pattern.length)
    (hp1 : 1 ≤ p) (hp : p ≤ 2147483647) (hfit : p * file.length ≤ 2147483647)
    (k : Nat) (hk : k < p) (j : Nat)
    (hj1 : spec_boundary k file.length p ≤ j) (hj2 : j < spec_boundary (k + 1) file.length p)
    (hocc : occurs_at file pattern j) :
    (j : Int) ∈ (worker_out heap file pattern p k).getD [] := by
  rw [worker_out_eq heap file pattern p hpat hm hp1 hp hfit k hk]
  generalize hb : spec_boundary k file.length p = b at hj1 ⊢
  generalize he : spec_boundary (k + 1) file.length p = e at hj2 ⊢
  have hjm : j + pattern.length ≤ file.length := hocc.1
  obtain ⟨junk, hc, _, _, _⟩ := cstr_load_chunk_read
    (malloc_block (heap k) (e - b + pattern.length + 1)) file b (e - b) pattern.length
    (length_malloc_block _ _) hfile (by omega)
  have hwin : occurs_at ((file.drop b).take (e - b + pattern.length - 1)) pattern (j - b) := by
    rw [occurs_at_window file pattern b _ (j - b) hm (by omega)]
    rw [show b + (j - b) = j by omega]
    exact hocc
  have hocc2 := occurs_at_append _ junk pattern (j - b) hwin
  rw [← hc] at hocc2
  simp only [Option.getD_some]
  apply List.mem_map.mpr
  refine ⟨j - b, List.mem_filter.mpr ⟨List.mem_range.mpr ?_, decide_eq_true hocc2⟩, ?_⟩
  · have := hocc2.1
    show j - b < (cstr _).length
    omega
  · congr 1
    omega

/-- Soundness of one worker when the unwritten part of its buffer starts with a
NUL: what it reports are occurrences in the text that start inside its range. -/
theorem worker_sound (heap : Nat → Nat → Byte) (file pattern : List Byte) (p : Nat)
    (hfile : nul_free file) (hpat : nul_free pattern) (hm : 1 ≤ pattern.length)
    (hp1 : 1 ≤ p) (hp : p ≤ 2147483647) (hfit : p * file.length ≤ 2147483647)
    (k : Nat) (hk : k < p)
    (htail : spec_boundary k file.length p + pattern.length ≤ file.length →
      file.length < spec_boundary (k + 1) file.length p + pattern.length - 1 →
      heap k (file.length - spec_boundary k file.length p) = 0)
    (x : Int) (hx : x ∈ (worker_out heap file pattern p k).getD []) :
    ∃ j, spec_boundary k file.length p ≤ j ∧ j < spec_boundary (k + 1) file.length p
      ∧ occurs_at file pattern j ∧ x = (j : Int) := by
  rw [worker_out_eq heap file pattern p hpat hm hp1 hp hfit k hk] at hx
  have hmono : spec_boundary k file.length p ≤ spec_boundary (k + 1) file.length p :=
    spec_boundary_mono file.length p (Nat.le_succ k)
  generalize hb : spec_boundary k file.length p = b at hx htail hmono ⊢
  generalize he : spec_boundary (k + 1) file.length p = e at hx htail hmono ⊢
  simp only [Option.getD_some] at hx
  obtain ⟨i, hi, rfl⟩ := List.mem_map.mp hx
  have hocc := of_decide_eq_true (List.mem_filter.mp hi).2
  by_cases hover : b + pattern.length > file.length
  · rw [cstr_load_chunk_empty _ _ _ _ _ hover] at hocc
    have := hocc.1
    rw [List.length_nil] at this
    omega
  · obtain ⟨junk, hc, _, _, hjunk⟩ := cstr_load_chunk_read
      (malloc_block (heap k) (e - b + pattern.length + 1)) file b (e - b) pattern.length
      (length_malloc_block _ _) hfile (by omega)
    have hlen : ((file.drop b).take (e - b + pattern.length - 1)).length
        = min (e - b + pattern.length - 1) (file.length - b) := by
      simp
    have hnil : junk = [] := by
      apply hjunk
      by_cases hfull : e - b + pattern.length - 1 ≤ file.length - b
      · left
        rw [hlen]
        omega
      · right
        rw [hlen, Nat.min_eq_right (by omega),
          getD_malloc_block _ _ _ _ (by omega)]
        exact htail (by omega) (by omega)
    rw [hc, hnil, List.append_nil] at hocc
    have hbound := hocc.1
    rw [hlen] at hbound
    have hwin := (occurs_at_window file pattern b _ i hm (by omega)).mp hocc
    exact ⟨b + i, by omega, by omega, hwin, rfl⟩

/-- The concatenation of the workers' reports is strictly ascending. -/
theorem flatten_sorted (t : Int) (p : Nat) (f : Nat → List Int)
    (hnn : ∀ k, k < p → 0 ≤ number_of_char k t p)
    (hrange : ∀ k, k < p → (f k).Pairwise (· < ·)
      ∧ ∀ x, x ∈ f k → num_elements t p k ≤ x ∧ x < num_elements t p (k + 1)) :
    List.Sorted (· < ·) ((List.range p).map f).flatten := by
  unfold List.Sorted
  rw [List.pairwise_flatten]
  constructor
  · intro l hl
    obtain ⟨k, hk, rfl⟩ := List.mem_map.mp hl
    exact (hrange k (List.mem_range.mp hk)).1
  · rw [List.pairwise_map]
    refine (List.pairwise_lt_range p).imp_of_mem ?_
    intro a b ha hb hab x hx y hy
    have h1 := (hrange a (List.mem_range.mp ha)).2 x hx
    have h2 := (hrange b (List.mem_range.mp hb)).2 y hy
    have := num_elements_mono t p hnn (a + 1) b hab (Nat.le_of_lt (List.mem_range.mp hb))
    omega

theorem naive_scan_sorted (text pattern : List Byte) :
    List.Sorted (· < ·) ((naive_scan text pattern).map (fun (i : Nat) => (i : Int))) := by
  unfold List.Sorted naive_scan
  rw [List.pairwise_map]
  refine ((List.pairwise_lt_range _).filter _).imp ?_
  intro a b hab
  omega

theorem mem_naive_scan (text pattern : List Byte) (hm : pattern.length ≤ text.length)
    (j : Nat) : j ∈ naive_scan text pattern ↔ occurs_at text pattern j := by
  unfold naive_scan occurs_at
  rw [List.mem_filter, List.mem_range, decide_eq_true_iff]
  constructor
  · rintro ⟨h1, h2⟩
    exact ⟨by omega, h2⟩
  · rintro ⟨h1, h2⟩
    exact ⟨by omega, h2⟩

/-! ## A run in which `number_of_char` overflows -/

/-- A gibibyte of the byte `a` searched by two workers: the count of worker 1 is
negative, so the run has no result. -/
theorem run_overflow (heap : Nat → Nat → Byte) :
    search_run heap (List.replicate 1073741824 97) [97] 2 = none := by
  unfold search_run
  cases hrun : run_from heap (List.replicate 1073741824 97) [97] ((2 : Nat) : Int) 2 0 0 with
  | none => rfl
  | some outs =>
    exfalso
    have h0 : run_from heap (List.replicate 1073741824 97) [97] ((2 : Nat) : Int) 2 0
        (num_elements (wrapInt ((List.replicate 1073741824 (97 : Byte)).length : Int))
          ((2 : Nat) : Int) 0) = some outs := hrun
    obtain ⟨hsome, _⟩ := run_from_inv heap (List.replicate 1073741824 97) [97] 2 2 0 outs h0
    obtain ⟨o, ho⟩ := hsome 1 (by decide) (by decide)
    have hnn := (worker_step_inv _ _ _ _ _ o ho (by decide)).1
    rw [List.length_replicate] at hnn
    revert hnn
    decide

/-! ## The empty file and the empty pattern -/

theorem number_of_char_zero (id p : Int) : number_of_char id 0 p = 0 := by
  unfold number_of_char
  rw [Int.mul_zero, Int.mul_zero]
  have h0 : wrapInt 0 = 0 := by decide
  rw [h0, Int.zero_tdiv, Int.sub_self, h0]

theorem num_elements_zero (p : Int) (k : Nat) : num_elements 0 p k = 0 := by
  induction k with
  | zero => rfl
  | succ k ih => rw [num_elements, ih, number_of_char_zero, Int.add_zero]

theorem flatten_map_nil {α : Type} (f : Nat → List α) (l : List Nat)
    (h : ∀ k, k ∈ l → f k = []) : (l.map f).flatten = [] := by
  induction l with
  | nil => rfl
  | cons a l ih =>
    rw [List.map_cons, List.flatten_cons, h a (List.mem_cons_self a l),
      ih (fun k hk => h k (List.mem_cons_of_mem a hk))]
    rfl

/-- A worker whose chunk string is empty reports nothing. -/
theorem reported_of_empty_chunk (res : Nat → Int) (start : Int) (chunk pattern : List Byte)
    (h : cstr chunk = []) : reported (check_pattern res start chunk pattern) = [] := by
  have hs : strlen chunk = 0 := by
    show (cstr chunk).length = 0
    rw [h]
    rfl
  rw [(check_pattern_spec res start chunk pattern).1, hs]
  rfl

/-- With the empty file every worker reports the empty list. -/
theorem worker_out_empty_file (heap : Nat → Nat → Byte) (pattern : List Byte) (p : Nat)
    (hm : 1 ≤ pattern.length) (k : Nat) :
    worker_out heap [] pattern p k = some [] := by
  have hw : wrapInt (([] : List Byte).length : Int) = 0 := by decide
  unfold worker_out worker_step
  rw [hw, number_of_char_zero, num_elements_zero, if_neg (by omega)]
  refine congrArg some (reported_of_empty_chunk _ _ _ _ ?_)
  unfold worker_chunk
  exact cstr_load_chunk_empty _ _ _ _ _ (by simp; omega)

/-- With the empty pattern a worker with a non-empty range reports every offset
of its range but the last one. -/
theorem worker_out_empty_pattern (heap : Nat → Nat → Byte) (file : List Byte) (p : Nat)
    (hfile : nul_free file) (hp1 : 1 ≤ p) (hp : p ≤ 2147483647)
    (hfit : p * file.length ≤ 2147483647) (k : Nat) (hk : k < p)
    (hn : spec_boundary k file.length p < spec_boundary (k + 1) file.length p) :
    worker_out heap file [] p k
      = some ((List.range (spec_boundary (k + 1) file.length p
                  - spec_boundary k file.length p - 1)).map
          (fun (i : Nat) => ((spec_boundary k file.length p + i : Nat) : Int))) := by
  have hS := num_elements_eq file.length p hp hfit k (Nat.le_of_lt hk)
  have hN := number_of_char_eq k file.length p hk hp hfit
  have hL := wrapInt_length file p hp1 hfit
  have hb : spec_boundary (k + 1) file.length p ≤ file.length := by
    have := spec_boundary_mono file.length p (show k + 1 ≤ p from hk)
    rw [spec_boundary_last file.length p hp1] at this
    exact this
  have hfl : file.length ≤ 2147483647 := by
    have : file.length ≤ p * file.length := Nat.le_mul_of_pos_left _ hp1
    omega
  generalize hbk : spec_boundary k file.length p = b at hS hN hn ⊢
  generalize hek : spec_boundary (k + 1) file.length p = e at hN hn hb ⊢
  unfold worker_out worker_step
  rw [hL, hS, hN, if_neg (by simp; omega)]
  unfold worker_chunk
  rw [Int.toNat_ofNat, Int.toNat_ofNat]
  obtain ⟨junk, hc, _, _, hjunk⟩ := cstr_load_chunk_read
    (malloc_block (heap k) (e - b + ([] : List Byte).length + 1)) file b (e - b)
    ([] : List Byte).length (length_malloc_block _ _) hfile (by simp; omega)
  have hdl : ((file.drop b).take (e - b + ([] : List Byte).length - 1)).length = e - b - 1 := by
    simp
    omega
  have hnil : junk = [] := hjunk (Or.inl (by rw [hdl]; simp))
  rw [hnil, List.append_nil] at hc
  have hspec := (check_pattern_spec (fun _ => 0) (b : Int)
    (load_chunk (malloc_block (heap k) (e - b + ([] : List Byte).length + 1)) file b (e - b)
      ([] : List Byte).length) []).1
  have hsl : strlen (load_chunk (malloc_block (heap k) (e - b + ([] : List Byte).length + 1))
      file b (e - b) ([] : List Byte).length) = e - b - 1 := by
    show (cstr _).length = e - b - 1
    rw [hc, hdl]
  rw [hspec, hsl, hc]
  refine congrArg some ?_
  have hall : (List.range (e - b - 1)).filter
      (fun i => decide (occurs_at ((file.drop b).take (e - b + ([] : List Byte).length - 1))
        (cstr []) i)) = List.range (e - b - 1) := by
    rw [List.filter_eq_self]
    intro i hi
    have hi := List.mem_range.mp hi
    apply decide_eq_true
    refine ⟨?_, ?_⟩
    · rw [hdl]
      simp [cstr]
      omega
    · simp [cstr]
  rw [hall]
  apply List.map_congr_left
  intro i hi
  have hi := List.mem_range.mp hi
  rw [wrapInt_of_range (by omega) (by omega)]
  push_cast
  rfl

/-- A gibibyte of the byte `a` and the empty pattern on two workers: the count of
worker 1 is negative, so the run stops without a result. -/
theorem run_overflow_empty (heap : Nat → Nat → Byte) :
    search_run heap (List.replicate 1073741824 97) [] 2 = none := by
  unfold search_run
  cases hrun : run_from heap (List.replicate 1073741824 97) [] ((2 : Nat) : Int) 2 0 0 with
  | none => rfl
  | some outs =>
    exfalso
    have h0 : run_from heap (List.replicate 1073741824 97) [] ((2 : Nat) : Int) 2 0
        (num_elements (wrapInt ((List.replicate 1073741824 (97 : Byte)).length : Int))
          ((2 : Nat) : Int) 0) = some outs := hrun
    obtain ⟨hsome, _⟩ := run_from_inv heap (List.replicate 1073741824 97) [] 2 2 0 outs h0
    obtain ⟨o, ho⟩ := hsome 1 (by decide) (by decide)
    have hnn := (worker_step_inv _ _ _ _ _ o ho (by decide)).1
    rw [List.length_replicate] at hnn
    revert hnn
    decide

/-! ## The split `number_of_char` (C2, C8, C9) -/

/-- C2, counterexample: for `total = 2147483647` and two workers the product
`(1 + 1) * total` leaves the range of `int`; `number_of_char` returns a negative
count for worker 1 although the range of the formula holds 1073741824 bytes. -/
theorem C2_counterexample :
    number_of_char 1 2147483647 2 = -1073741824
    ∧ (spec_boundary 2 2147483647 2 : Int) - spec_boundary 1 2147483647 2 = 1073741824 := by
  decide

/-- C2 (amended): for every `total ≥ 0` and `1 ≤ p ≤ INT_MAX` with
`p * total ≤ INT_MAX`, the ranges `[floor(id*total/p), floor((id+1)*total/p))`
(which are the `first` and `last` computed by `redact.c`) have sizes
`number_of_char id total p`, non-decreasing boundaries inside
`[0, total]`, are pairwise disjoint, cover `[0, total)` and their sizes differ by
at most 1; for `total = 0` every range is empty and for `p = 1` the single
range is `[0, total)`. -/
theorem C2_partition (total p : Nat) (hp1 : 1 ≤ p) (hp : p ≤ 2147483647)
    (hfit : p * total ≤ 2147483647) :
    (∀ id, id < p →
        number_of_char id total p
          = (spec_boundary (id + 1) total p : Int) - spec_boundary id total p
        ∧ thread_first id total p = (spec_boundary id total p : Int)
        ∧ thread_last id total p = (spec_boundary (id + 1) total p : Int)
        ∧ spec_boundary id total p ≤ spec_boundary (id + 1) total p
        ∧ spec_boundary (id + 1) total p ≤ total)
    ∧ (∀ i j, i < j → j < p → spec_boundary (i + 1) total p ≤ spec_boundary j total p)
    ∧ (∀ x i j, i < p → j < p →
        spec_boundary i total p ≤ x → x < spec_boundary (i + 1) total p →
        spec_boundary j total p ≤ x → x < spec_boundary (j + 1) total p → i = j)
    ∧ (∀ x, x < total →
        ∃ id, id < p ∧ spec_boundary id total p ≤ x ∧ x < spec_boundary (id + 1) total p)
    ∧ (∀ i j, i < p → j < p → number_of_char i total p ≤ number_of_char j total p + 1)
    ∧ (total = 0 → ∀ id, id < p →
        spec_boundary id total p = 0 ∧ spec_boundary (id + 1) total p = 0)
    ∧ (p = 1 → spec_boundary 0 total p = 0 ∧ spec_boundary 1 total p = total) := by
  have hp0 : 0 < p := hp1
  have hlast := spec_boundary_last total p hp0
  refine ⟨?_, ?_, ?_, ?_, ?_, ?_, ?_⟩
  · intro id hid
    have hm : spec_boundary id total p ≤ spec_boundary (id + 1) total p :=
      spec_boundary_mono total p (Nat.le_succ id)
    have hl : spec_boundary (id + 1) total p ≤ spec_boundary p total p :=
      spec_boundary_mono total p hid
    refine ⟨?_, (thread_range_eq id total p hid hp hfit).1,
      (thread_range_eq id total p hid hp hfit).2, hm, by omega⟩
    rw [number_of_char_eq id total p hid hp hfit]
    omega
  · intro i j hij _
    exact spec_boundary_mono total p hij
  · intro x i j _ _ hi1 hi2 hj1 hj2
    by_contra hne
    rcases Nat.lt_or_gt_of_ne hne with h | h
    · have := spec_boundary_mono total p (show i + 1 ≤ j from h)
      omega
    · have := spec_boundary_mono total p (show j + 1 ≤ i from h)
      omega
  · intro x hx
    exact exists_range_of_lt total p p x (by omega)
  · intro i j hi hj
    rw [number_of_char_eq i total p hi hp hfit, number_of_char_eq j total p hj hp hfit,
      spec_boundary_succ i total p hp0, spec_boundary_succ j total p hp0]
    split <;> split <;> omega
  · intro h0 id _
    subst h0
    simp [spec_boundary]
  · intro h1
    subst h1
    simp [spec_boundary]

/-- C2, witness: ten bytes among three workers. -/
theorem C2_partition_witness :
    (∀ x, x < 10 → ∃ id, id < 3 ∧ spec_boundary id 10 3 ≤ x ∧ x < spec_boundary (id + 1) 10 3)
    ∧ (∀ i j : Nat, i < 3 → j < 3 → number_of_char i 10 3 ≤ number_of_char j 10 3 + 1) :=
  ⟨(C2_partition 10 3 (by decide) (by decide) (by decide)).2.2.2.1,
   (C2_partition 10 3 (by decide) (by decide) (by decide)).2.2.2.2.1⟩

/-- C8, counterexample: with `total = 2147483647` and 2 workers the running total
after the last worker is `-1`, not `total`. -/
theorem C8_counterexample :
    num_elements 2147483647 2 2 = -1 ∧ num_elements 2147483647 2 2 ≠ 2147483647 := by
  decide

/-- C8 (amended): for every `total ≥ 0` and `1 ≤ p ≤ INT_MAX` with
`p * total ≤ INT_MAX` and every `i ∈ [0, p]`, the running total `num_elements`
shipped to worker `i` equals `floor(i * total / p)`; each worker's range is
`[floor(i*total/p), floor((i+1)*total/p))`, of size `number_of_char i`, and the
running total after the last worker equals `total`. -/
theorem C8_running_total (total p : Nat) (hp1 : 1 ≤ p) (hp : p ≤ 2147483647)
    (hfit : p * total ≤ 2147483647) :
    (∀ i, i ≤ p → num_elements total p i = ((i * total / p : Nat) : Int))
    ∧ (∀ i, i < p →
        num_elements total p i + number_of_char i total p
          = (((i + 1) * total / p : Nat) : Int))
    ∧ num_elements total p p = total := by
  refine ⟨?_, ?_, ?_⟩
  · intro i hi
    exact num_elements_eq total p hp hfit i hi
  · intro i hi
    have h := num_elements_eq total p hp hfit (i + 1) hi
    rw [num_elements] at h
    exact h
  · rw [num_elements_eq total p hp hfit p (Nat.le_refl p), spec_boundary_last total p hp1]

/-- C8, witness: five bytes among three workers give the starts 0, 1, 3 and the
final total 5. -/
theorem C8_running_total_witness :
    (∀ i, i ≤ 3 → num_elements 5 3 i = ((i * 5 / 3 : Nat) : Int))
    ∧ num_elements 5 3 3 = 5 :=
  ⟨(C8_running_total 5 3 (by decide) (by decide) (by decide)).1,
   (C8_running_total 5 3 (by decide) (by decide) (by decide)).2.2⟩

/-- C9, counterexample: for `fileSize = 5` and `P = 3` we have `0 < 5 mod 3`,
yet worker 0 gets `1 = floor(5/3)` byte, not `floor(5/3) + 1 = 2`; the extra
bytes go to workers 1 and 2. -/
theorem C9_counterexample :
    (0 : Nat) < 5 % 3 ∧ number_of_char 0 5 3 = 1 ∧ ((5 / 3 : Nat) : Int) + 1 = 2
    ∧ number_of_char 1 5 3 = 2 ∧ number_of_char 2 5 3 = 2 := by
  decide

/-- C9 (amended): for every `fileSize ≥ 0` and `1 ≤ P ≤ INT_MAX` with
`P * fileSize ≤ INT_MAX`, worker `id` gets `floor(fileSize / P) + 1` bytes when
`(id * fileSize) mod P + fileSize mod P ≥ P` and `floor(fileSize / P)` bytes
otherwise; exactly `fileSize mod P` workers get the extra byte, and worker 0 is
never one of them. -/
theorem C9_extra_byte (fileSize P : Nat) (hP1 : 1 ≤ P) (hP : P ≤ 2147483647)
    (hfit : P * fileSize ≤ 2147483647) :
    (∀ id, id < P →
        number_of_char id fileSize P
          = ((fileSize / P + (if P ≤ id * fileSize % P + fileSize % P then 1 else 0) : Nat) : Int))
    ∧ ((List.range P).filter
          (fun id => decide (P ≤ id * fileSize % P + fileSize % P))).length = fileSize % P
    ∧ number_of_char 0 fileSize P = ((fileSize / P : Nat) : Int) := by
  have hP0 : 0 < P := hP1
  have hsize : ∀ id, id < P →
      number_of_char id fileSize P
        = ((fileSize / P + (if P ≤ id * fileSize % P + fileSize % P then 1 else 0) : Nat) : Int) := by
    intro id hid
    rw [number_of_char_eq id fileSize P hid hP hfit, spec_boundary_succ id fileSize P hP0]
    rw [Nat.add_assoc, Nat.add_sub_cancel_left]
  refine ⟨hsize, ?_, ?_⟩
  · have h := spec_boundary_count fileSize P hP0 P
    rw [spec_boundary_last fileSize P hP0] at h
    have hdm := Nat.div_add_mod fileSize P
    have hc : P * (fileSize / P) = P * (fileSize / P) := rfl
    generalize ((List.range P).filter
      (fun id => decide (P ≤ id * fileSize % P + fileSize % P))).length = c at h
    generalize fileSize / P = q at h hdm
    generalize fileSize % P = r at hdm
    have : P * q + r = P * q + c := by omega
    omega
  · have h0 := hsize 0 hP0
    have hr : fileSize % P < P := Nat.mod_lt _ hP0
    rw [Nat.cast_zero] at h0
    rw [h0, Nat.zero_mul, Nat.zero_mod, Nat.zero_add, if_neg (by omega), Nat.add_zero]

/-- C9, witness: five bytes among three workers. -/
theorem C9_extra_byte_witness :
    ((List.range 3).filter (fun id => decide (3 ≤ id * 5 % 3 + 5 % 3))).length = 5 % 3
    ∧ number_of_char 0 5 3 = ((5 / 3 : Nat) : Int) :=
  (C9_extra_byte 5 3 (by decide) (by decide) (by decide)).2

/-! ## The matcher and the filter (C3, C6) -/

/-- C6: for every pattern argument the filter of `main` is a total function (it
has no rejecting path); it yields exactly the subsequence, in the original
order, of the bytes of the argument string with value in `0x20 .. 0x7E`
(control bytes, `0x7F` and bytes `≥ 0x80` are dropped), `pattern_length` is the
number of such bytes, the result is a proper C string of that length, and it is
this filtered pattern that the search matches against the file. -/
theorem C6_pattern_filter (argv1 : List Byte) :
    filter_pattern argv1 = (cstr argv1).filter printable
    ∧ (nul_free argv1 → filter_pattern argv1 = argv1.filter printable)
    ∧ (filter_pattern argv1).length = ((cstr argv1).filter printable).length
    ∧ strlen (filter_pattern argv1) = (filter_pattern argv1).length
    ∧ (∀ b, b ∈ filter_pattern argv1 ↔ b ∈ cstr argv1 ∧ 0x20 ≤ b.val ∧ b.val ≤ 0x7E)
    ∧ (∀ heap file p,
        search_main heap argv1 file p = search_run heap file ((cstr argv1).filter printable) p) := by
  have h := filter_pattern_spec argv1
  refine ⟨h, ?_, ?_, ?_, ?_, ?_⟩
  · intro hn
    rw [h, cstr_of_nul_free hn]
  · rw [h]
  · exact strlen_of_nul_free (filter_pattern_nul_free argv1)
  · intro b
    rw [h, List.mem_filter]
    simp [printable]
  · intro heap file p
    unfold search_main
    rw [h]

/-- C6, witness: the argument `a \n 0xC8 b 0x7F ~ space 0x1F` keeps `a b ~ space`. -/
theorem C6_pattern_filter_witness :
    nul_free [97, 10, 200, 98, 127, 126, 32, 31]
    ∧ filter_pattern [97, 10, 200, 98, 127, 126, 32, 31] = [97, 98, 126, 32] :=
  ⟨by decide,
   ((C6_pattern_filter [97, 10, 200, 98, 127, 126, 32, 31]).2.1 (by decide)).trans (by decide)⟩

/-! ## Own ranges and output order (C4, C5) -/

/-- C4: for every file, `int` worker count `p ≥ 1`, pattern string of length
`≥ 1` and worker id, in a run that produces a result (it does whenever
`p * fileSize` fits an `int`) what worker `id` reports is the result of
`check_pattern` on its chunk with its start index, the chunk string has at most
`number_of_char(id) + patternLength - 1` bytes whatever the buffer held before,
and every offset the worker reports lies in its own range
`[start, start + number_of_char(id))`: a match starting in the overlap bytes is
not reported by it, and no offset is reported by two workers. -/
theorem C4_own_range (heap : Nat → Nat → Byte) (file pattern : List Byte) (p : Nat)
    (hpat : nul_free pattern) (hm : 1 ≤ pattern.length)
    (hp1 : 1 ≤ p) (hp : p ≤ 2147483647) :
    (p * file.length ≤ 2147483647 →
        ∃ outs, run_from heap file pattern p p 0 0 = some outs)
    ∧ ∀ outs, run_from heap file pattern p p 0 0 = some outs →
        outs.length = p
        ∧ (∀ id, id < p →
            outs.getD id [] = reported (check_pattern (fun _ => 0)
              (num_elements (wrapInt file.length) p id)
              (worker_chunk (heap id) file pattern
                (num_elements (wrapInt file.length) p id)
                (number_of_char id (wrapInt file.length) p)) pattern))
        ∧ (∀ id, id < p →
            strlen (worker_chunk (heap id) file pattern
                (num_elements (wrapInt file.length) p id)
                (number_of_char id (wrapInt file.length) p))
              ≤ (number_of_char id (wrapInt file.length) p).toNat + pattern.length - 1)
        ∧ (∀ id, id < p → ∀ x, x ∈ outs.getD id [] →
            num_elements (wrapInt file.length) p id ≤ x
            ∧ x < num_elements (wrapInt file.length) p id
                  + number_of_char id (wrapInt file.length) p)
        ∧ (∀ i j, i < p → j < p → i ≠ j → ∀ x, x ∈ outs.getD i [] → x ∉ outs.getD j []) := by
  refine ⟨fun hfit => ⟨_, run_defined heap file pattern p hm hp1 hp hfit⟩, ?_⟩
  intro outs h
  obtain ⟨houts, hnn, hrange⟩ := run_invariants heap file pattern p hpat hp1 hp outs h
  have hget : ∀ id, id < p →
      outs.getD id [] = (worker_out heap file pattern p id).getD [] := by
    intro id hid
    rw [houts, List.getD_eq_getElem _ _ (by simp; exact hid)]
    simp
  have hin : ∀ id, id < p → ∀ x, x ∈ outs.getD id [] →
      num_elements (wrapInt file.length) p id ≤ x
      ∧ x < num_elements (wrapInt file.length) p (id + 1) := by
    intro id hid x hx
    rw [hget id hid] at hx
    exact (hrange id hid).2 x hx
  have h0 : run_from heap file pattern p p 0 (num_elements (wrapInt file.length) p 0)
      = some outs := h
  refine ⟨by rw [houts]; simp, ?_, ?_, ?_, ?_⟩
  · intro id hid
    obtain ⟨o, ho⟩ := (run_from_inv heap file pattern p p 0 outs h0).1 id
      (Nat.zero_le id) (by omega)
    rw [hget id hid, ho]
    exact worker_step_eq _ _ _ _ _ o ho
  · intro id _
    exact strlen_load_chunk_le _ _ _ _ _ (length_malloc_block _ _)
  · intro id hid x hx
    have := hin id hid x hx
    rw [num_elements] at this
    exact this
  · intro i j hi hj hij x hxi hxj
    have h1 := hin i hi x hxi
    have h2 := hin j hj x hxj
    rcases Nat.lt_or_gt_of_ne hij with hlt | hlt
    · have := num_elements_mono (wrapInt file.length) p hnn (i + 1) j hlt (by omega)
      omega
    · have := num_elements_mono (wrapInt file.length) p hnn (j + 1) i hlt (by omega)
      omega

/-- C4, witness: `"abcabcabc"`, pattern `"bca"`, three workers; they report
`[1]`, `[4]` and nothing. -/
theorem C4_own_range_witness :
    run_from (fun _ _ => 0) [97, 98, 99, 97, 98, 99, 97, 98, 99] [98, 99, 97] 3 3 0 0
      = some [[1], [4], []]
    ∧ (∀ i j, i < 3 → j < 3 → i ≠ j →
        ∀ x, x ∈ ([[1], [4], []] : List (List Int)).getD i [] →
          x ∉ ([[1], [4], []] : List (List Int)).getD j []) :=
  ⟨by decide,
   ((C4_own_range (fun _ _ => 0) [97, 98, 99, 97, 98, 99, 97, 98, 99] [98, 99, 97] 3
      (by decide) (by decide) (by decide) (by decide)).2 [[1], [4], []] (by decide)).2.2.2.2⟩

/-- C5: for every text, pattern string of length `≥ 1` and `int` worker count
`p ≥ 1`, the sequence printed by the root (its own offsets, then those of
workers `1 .. p-1` in rank order, each list as `check_pattern` produced it) is
strictly ascending; the run does print such a sequence whenever `p * len(text)`
fits an `int`. -/
theorem C5_ascending (heap : Nat → Nat → Byte) (file pattern : List Byte) (p : Nat)
    (hpat : nul_free pattern) (hm : 1 ≤ pattern.length)
    (hp1 : 1 ≤ p) (hp : p ≤ 2147483647) :
    (p * file.length ≤ 2147483647 → ∃ out, search_run heap file pattern p = some out)
    ∧ ∀ out, search_run heap file pattern p = some out → List.Sorted (· < ·) out := by
  constructor
  · intro hfit
    unfold search_run
    rw [run_defined heap file pattern p hm hp1 hp hfit]
    exact ⟨_, rfl⟩
  · intro out h
    unfold search_run at h
    obtain ⟨outs, hrun, hflat⟩ := Option.map_eq_some'.mp h
    obtain ⟨houts, hnn, hrange⟩ := run_invariants heap file pattern p hpat hp1 hp outs hrun
    rw [← hflat, houts]
    exact flatten_sorted (wrapInt file.length) p _ hnn hrange

/-- C5, witness: `"abcabcabc"`, pattern `"bca"`, three workers. -/
theorem C5_ascending_witness :
    search_run (fun _ _ => 0) [97, 98, 99, 97, 98, 99, 97, 98, 99] [98, 99, 97] 3 = some [1, 4]
    ∧ List.Sorted (· < ·) ([1, 4] : List Int) :=
  ⟨by decide,
   (C5_ascending (fun _ _ => 0) [97, 98, 99, 97, 98, 99, 97, 98, 99] [98, 99, 97] 3
    (by decide) (by decide) (by decide) (by decide)).2 [1, 4] (by decide)⟩

/-! ## The distributed search against the naive scan (C1, C7, C10) -/

/-- C1, counterexample: (1) the text of `2^30` bytes `a`, the pattern `"a"` and
two workers satisfy the conditions of the claim, but `(1 + 1) * 2^30` overflows
in `number_of_char`, worker 1 gets a negative count and the run yields no list
of offsets at all (with buffers that were all zero before the load); (2) for
the file `"ab"`, the pattern `"bc"` and one worker whose buffer held the byte
`c` at index 2, the run reports offset 1 while the naive scan finds nothing. -/
theorem C1_counterexample :
    (nul_free (List.replicate 1073741824 97)
      ∧ 1 ≤ ([97] : List Byte).length
      ∧ ([97] : List Byte).length ≤ (List.replicate 1073741824 (97 : Byte)).length
      ∧ search_run (fun _ _ => 0) (List.replicate 1073741824 97) [97] 2
          ≠ some ((naive_scan (List.replicate 1073741824 97) [97]).map
              (fun (i : Nat) => (i : Int))))
    ∧ (nul_free [97, 98] ∧ 1 ≤ ([98, 99] : List Byte).length
      ∧ ([98, 99] : List Byte).length ≤ ([97, 98] : List Byte).length
      ∧ search_run (fun _ _ => 99) [97, 98] [98, 99] 1
          ≠ some ((naive_scan [97, 98] [98, 99]).map (fun (i : Nat) => (i : Int)))) := by
  refine ⟨⟨?_, by decide, by rw [List.length_replicate]; decide, ?_⟩, by decide⟩
  · intro b hb
    rw [List.eq_of_mem_replicate hb]
    decide
  · rw [run_overflow]
    exact fun h => Option.noConfusion h

/-- C1 (amended): for every NUL-free text `T`, every NUL-free pattern `P` with
`1 ≤ len(P) ≤ len(T)` and every worker count `p ≥ 1` with
`p * len(T) ≤ INT_MAX`, when each worker's chunk is the one of the coordinator
rule (the buffer byte after a read cut short by the end of the file is NUL),
the concatenation of the workers' results in rank order is exactly the list of
offsets of the naive scan of the whole text. -/
theorem C1_distributed_search (heap : Nat → Nat → Byte) (T P : List Byte) (p : Nat)
    (hT : nul_free T) (hP : nul_free P) (h1 : 1 ≤ P.length) (h2 : P.length ≤ T.length)
    (hp1 : 1 ≤ p) (hfit : p * T.length ≤ 2147483647)
    (htail : tail_is_nul heap T.length P.length p) :
    search_run heap T P p = some ((naive_scan T P).map (fun (i : Nat) => (i : Int))) := by
  have hp : p ≤ 2147483647 :=
    Nat.le_trans (Nat.le_mul_of_pos_right p (by omega)) hfit
  have hrun := run_defined heap T P p h1 hp1 hp hfit
  obtain ⟨_, hnn, hrange⟩ := run_invariants heap T P p hP hp1 hp _ hrun
  unfold search_run
  rw [hrun, Option.map_some']
  refine congrArg some ?_
  have hs1 := flatten_sorted (wrapInt T.length) p _ hnn hrange
  have hs2 := naive_scan_sorted T P
  refine List.eq_of_perm_of_sorted ((List.perm_ext_iff_of_nodup hs1.nodup hs2.nodup).mpr ?_)
    hs1 hs2
  intro x
  constructor
  · intro hx
    obtain ⟨l, hl, hxl⟩ := List.mem_flatten.mp hx
    obtain ⟨k, hk, rfl⟩ := List.mem_map.mp hl
    have hk := List.mem_range.mp hk
    obtain ⟨j, _, _, hocc, rfl⟩ := worker_sound heap T P p hT hP h1 hp1 hp hfit k hk
      (htail k hk) x hxl
    exact List.mem_map.mpr ⟨j, (mem_naive_scan T P h2 j).mpr hocc, rfl⟩
  · intro hx
    obtain ⟨j, hj, rfl⟩ := List.mem_map.mp hx
    have hocc := (mem_naive_scan T P h2 j).mp hj
    have hjl : j < spec_boundary p T.length p := by
      rw [spec_boundary_last T.length p hp1]
      have := hocc.1
      omega
    obtain ⟨k, hk, hk1, hk2⟩ := exists_range_of_lt T.length p p j hjl
    exact List.mem_flatten.mpr ⟨_, List.mem_map.mpr ⟨k, List.mem_range.mpr hk, rfl⟩,
      worker_finds heap T P p hT hP h1 hp1 hp hfit k hk j hk1 hk2 hocc⟩

/-- C1, witness: `"abcabcabc"`, pattern `"bca"`, two workers; the match at offset
4 straddles the boundary between the ranges `[0, 4)` and `[4, 9)`. -/
theorem C1_distributed_search_witness :
    search_run (fun _ _ => 0) [97, 98, 99, 97, 98, 99, 97, 98, 99] [98, 99, 97] 2
      = some ((naive_scan [97, 98, 99, 97, 98, 99, 97, 98, 99] [98, 99, 97]).map
          (fun (i : Nat) => (i : Int))) :=
  C1_distributed_search (fun _ _ => 0) [97, 98, 99, 97, 98, 99, 97, 98, 99] [98, 99, 97] 2
    (by decide) (by decide) (by decide) (by decide) (by decide) (by decide)
    (fun _ _ _ _ => rfl)

/-- C7, the code at the failing input: file `"ab"`, pattern length 2, one worker
with range `[0, 2)`.  `fread` is asked for 3 bytes and delivers 2; the
terminator is written at index 3, so the byte the buffer held at index 2 (here
`c`) stays inside the chunk string, which is `"abc"` and not the file bytes
`[0, min(2 + 2 - 1, 2)) = "ab"`; searching `"bc"` then reports offset 1 in a
file that does not contain it. -/
theorem C7_stale_byte :
    cstr (worker_chunk (fun _ => 99) [97, 98] [98, 99] 0 2) = [97, 98, 99]
    ∧ (([97, 98] : List Byte).drop 0).take (min (2 + 2 - 1) 2 - 0) = [97, 98]
    ∧ search_run (fun _ _ => 99) [97, 98] [98, 99] 1 = some [1]
    ∧ naive_scan [97, 98] [98, 99] = [] := by
  decide

/-- C10, counterexample: (1) in the text of `2^30` bytes `a` the pattern `"a"`
occurs at the last valid offset, but with two workers `number_of_char`
overflows and the run reports nothing; (2) in the text `NUL a b` the pattern
`"ab"` occurs at the last valid offset 1, but the chunk string of the one worker
ends at the NUL byte and the run reports nothing; (3) for the file `"ab"`, the
pattern `"bc"` and one worker whose buffer held the byte `c` at index 2, the run
reports offset 1, greater than `len(T) - len(P) = 0`. -/
theorem C10_counterexample :
    (((List.replicate 1073741824 (97 : Byte)).drop (1073741824 - 1)).take 1 = [97]
      ∧ search_run (fun _ _ => 0) (List.replicate 1073741824 97) [97] 2 = none)
    ∧ ((([0, 97, 98] : List Byte).drop (3 - 2)).take 2 = [97, 98]
      ∧ search_run (fun _ _ => 0) [0, 97, 98] [97, 98] 1 = some [])
    ∧ (search_run (fun _ _ => 99) [97, 98] [98, 99] 1 = some [1]
      ∧ ((([97, 98] : List Byte).length - ([98, 99] : List Byte).length : Nat) : Int) < 1) := by
  refine ⟨⟨?_, run_overflow _⟩, by decide, by decide, by decide⟩
  rw [List.drop_replicate, List.take_replicate]
  rfl

/-- C10 (amended): for every NUL-free text `T`, NUL-free pattern `P` with
`1 ≤ len(P) ≤ len(T)` and worker count `p ≥ 1` with
`p * len(T) ≤ INT_MAX`, the search prints a list of offsets; if `P` occurs at
the last valid start offset `len(T) - len(P)` that offset is in the list
(whatever the buffers held before); every offset in the list is below `len(T)`;
and when each worker's chunk is the one of the coordinator rule (the buffer
byte after a read cut short by the end of the file is NUL) no offset in the
list is greater than `len(T) - len(P)`. -/
theorem C10_last_offset (heap : Nat → Nat → Byte) (T P : List Byte) (p : Nat)
    (hT : nul_free T) (hP : nul_free P) (h1 : 1 ≤ P.length) (h2 : P.length ≤ T.length)
    (hp1 : 1 ≤ p) (hfit : p * T.length ≤ 2147483647) :
    ∃ out, search_run heap T P p = some out
      ∧ ((T.drop (T.length - P.length)).take P.length = P →
          ((T.length - P.length : Nat) : Int) ∈ out)
      ∧ (∀ x, x ∈ out → x < (T.length : Int))
      ∧ (tail_is_nul heap T.length P.length p →
          ∀ x, x ∈ out → x ≤ ((T.length - P.length : Nat) : Int)) := by
  have hp : p ≤ 2147483647 :=
    Nat.le_trans (Nat.le_mul_of_pos_right p (by omega)) hfit
  have hrun := run_defined heap T P p h1 hp1 hp hfit
  obtain ⟨_, hnn, hrange⟩ := run_invariants heap T P p hP hp1 hp _ hrun
  refine ⟨_, by unfold search_run; rw [hrun, Option.map_some'], ?_, ?_, ?_⟩
  · intro hlast
    have hocc : occurs_at T P (T.length - P.length) := ⟨by omega, hlast⟩
    have hjl : T.length - P.length < spec_boundary p T.length p := by
      rw [spec_boundary_last T.length p hp1]
      omega
    obtain ⟨k, hk, hk1, hk2⟩ := exists_range_of_lt T.length p p _ hjl
    exact List.mem_flatten.mpr ⟨_, List.mem_map.mpr ⟨k, List.mem_range.mpr hk, rfl⟩,
      worker_finds heap T P p hT hP h1 hp1 hp hfit k hk _ hk1 hk2 hocc⟩
  · intro x hx
    obtain ⟨l, hl, hxl⟩ := List.mem_flatten.mp hx
    obtain ⟨k, hk, rfl⟩ := List.mem_map.mp hl
    have hk := List.mem_range.mp hk
    have hlt := ((hrange k hk).2 x hxl).2
    have hmono := num_elements_mono (wrapInt T.length) p hnn (k + 1) p hk (Nat.le_refl p)
    have hlast := num_elements_eq T.length p hp hfit p (Nat.le_refl p)
    rw [spec_boundary_last T.length p hp1, ← wrapInt_length T p hp1 hfit] at hlast
    rw [← wrapInt_length T p hp1 hfit]
    omega
  · intro htail x hx
    obtain ⟨l, hl, hxl⟩ := List.mem_flatten.mp hx
    obtain ⟨k, hk, rfl⟩ := List.mem_map.mp hl
    have hk := List.mem_range.mp hk
    obtain ⟨j, _, _, hocc, rfl⟩ := worker_sound heap T P p hT hP h1 hp1 hp hfit k hk
      (htail k hk) x hxl
    have := hocc.1
    omega

/-- C10, witness: in `"abcabcabc"` the pattern `"abc"` occurs at the last valid
offset 6; three workers with zeroed buffers (so the byte after a read cut short
is NUL) print `0, 3, 6`: offset 6 is reported and nothing above it. -/
theorem C10_last_offset_witness :
    search_run (fun _ _ => 0) [97, 98, 99, 97, 98, 99, 97, 98, 99] [97, 98, 99] 3
        = some [0, 3, 6]
    ∧ tail_is_nul (fun _ _ => 0) 9 3 3
    ∧ ∃ out, search_run (fun _ _ => 0) [97, 98, 99, 97, 98, 99, 97, 98, 99] [97, 98, 99] 3
          = some out
        ∧ ((9 - 3 : Nat) : Int) ∈ out
        ∧ (∀ x, x ∈ out → x < ((9 : Nat) : Int))
        ∧ (∀ x, x ∈ out → x ≤ ((9 - 3 : Nat) : Int)) :=
  ⟨by decide, fun _ _ _ _ => rfl,
   (C10_last_offset (fun _ _ => 0) [97, 98, 99, 97, 98, 99, 97, 98, 99] [97, 98, 99] 3
      (by decide) (by decide) (by decide) (by decide) (by decide) (by decide)).imp
     (fun _ h => ⟨h.1, h.2.1 (by decide), h.2.2.1, h.2.2.2 (fun _ _ _ _ => rfl)⟩)⟩

/-! ## Concrete scenarios, the empty file and the empty pattern (C11 .. C14, C19) -/

/-- C11, the code at the failing input: text `"abcabcabc"`, pattern `"bca"`.  When
the buffers are zero before the load the output is `[1, 4]` for every worker
count from 1 to 9.  When the buffer of the last worker held the byte `a` after
the bytes read, the workers counts 1 to 4 print `[1, 4, 7]`: the read of the
last worker is cut short by the end of the file, the terminator is written two
bytes further, and `"bc"` followed by the stale `a` is taken for a match. -/
theorem C11_stale_byte :
    (List.range' 1 9).map
        (fun p => search_run (fun _ _ => 0) [97, 98, 99, 97, 98, 99, 97, 98, 99] [98, 99, 97] p)
      = List.replicate 9 (some [1, 4])
    ∧ (List.range' 1 4).map
        (fun p => search_run (fun _ _ => 97) [97, 98, 99, 97, 98, 99, 97, 98, 99] [98, 99, 97] p)
      = List.replicate 4 (some [1, 4, 7]) := by
  decide

/-- C12, the code at the failing input: text `"aaaa"`, pattern `"aa"`.  When the
buffers are zero before the load the output is `[0, 1, 2]` for every worker
count from 1 to 4 (overlapping occurrences are all counted).  When the buffer of
the last worker held the byte `a` after the bytes read, the worker counts 1 to
3 print `[0, 1, 2, 3]`: offset 3 is not an occurrence in the file. -/
theorem C12_stale_byte :
    (List.range' 1 4).map (fun p => search_run (fun _ _ => 0) [97, 97, 97, 97] [97, 97] p)
      = List.replicate 4 (some [0, 1, 2])
    ∧ (List.range' 1 3).map (fun p => search_run (fun _ _ => 97) [97, 97, 97, 97] [97, 97] p)
      = List.replicate 3 (some [0, 1, 2, 3]) := by
  decide

/-- C13: for the empty file, every non-empty pattern and every worker count
`p ≥ 1` (whatever the buffers held before), every worker gets the count 0 and
the start 0, its chunk string is empty, it reports nothing, and the search
prints no offset. -/
theorem C13_empty_file (heap : Nat → Nat → Byte) (pattern : List Byte) (p : Nat)
    (hm : 1 ≤ pattern.length) :
    (∀ id, id < p →
        number_of_char id (wrapInt (([] : List Byte).length : Int)) p = 0
        ∧ num_elements (wrapInt (([] : List Byte).length : Int)) p id = 0
        ∧ cstr (worker_chunk (heap id) [] pattern 0 0) = []
        ∧ worker_out heap [] pattern p id = some [])
    ∧ search_run heap [] pattern p = some [] := by
  have hw : wrapInt (([] : List Byte).length : Int) = 0 := by decide
  constructor
  · intro id _
    rw [hw]
    refine ⟨number_of_char_zero _ _, num_elements_zero _ _, ?_,
      worker_out_empty_file heap pattern p hm id⟩
    unfold worker_chunk
    exact cstr_load_chunk_empty _ _ _ _ _ (by simp; omega)
  · have h := run_from_some heap [] pattern p p 0
      (fun k _ _ => ⟨[], worker_out_empty_file heap pattern p hm k⟩)
    have h0 : run_from heap [] pattern p p 0 0
        = some ((List.range' 0 p).map (fun k => (worker_out heap [] pattern p k).getD [])) := h
    unfold search_run
    rw [h0, Option.map_some']
    refine congrArg some (flatten_map_nil _ _ ?_)
    intro k _
    rw [worker_out_empty_file heap pattern p hm k]
    rfl

/-- C13, witness: the empty file searched for `"bca"` by three workers. -/
theorem C13_empty_file_witness :
    search_run (fun _ _ => 97) [] [98, 99, 97] 3 = some [] :=
  (C13_empty_file (fun _ _ => 97) [98, 99, 97] 3 (by decide)).2

/-- C14, counterexample: with the empty pattern, (1) on the text `"aaaa"` one
worker prints `[0, 1, 2]` (not `0, 1, 2, 3`: the root reads `local_check - 1`
bytes) and two workers print `[0, 2]`; (2) on the text `a NUL a a` one worker
prints `[0]`: the chunk string ends at the NUL byte; (3) on a text of `2^30`
bytes with two workers `number_of_char` overflows, the count of worker 1 is
negative and nothing is printed; (4) on `"aaaa"` with five workers the range of
worker 0 is empty, so its terminator index `local_check + pattern_length - 1`
is `-1`: the byte is written before the start of the buffer. -/
theorem C14_counterexample :
    (search_run (fun _ _ => 0) [97, 97, 97, 97] [] 1 = some [0, 1, 2]
      ∧ search_run (fun _ _ => 0) [97, 97, 97, 97] [] 2 = some [0, 2])
    ∧ search_run (fun _ _ => 0) [97, 0, 97, 97] [] 1 = some [0]
    ∧ search_run (fun _ _ => 0) (List.replicate 1073741824 97) [] 2 = none
    ∧ (number_of_char 0 (wrapInt (([97, 97, 97, 97] : List Byte).length : Int)) 5 = 0
      ∧ number_of_char 0 (wrapInt (([97, 97, 97, 97] : List Byte).length : Int)) 5
          + (([] : List Byte).length : Int) - 1 = -1) :=
  ⟨by decide, by decide, run_overflow_empty _, by decide, by decide⟩

/-- C14 (amended): for the empty pattern, every NUL-free text `T` and every
worker count `p` with `1 ≤ p ≤ len(T)` (every range is non-empty, so every
terminator index is inside its buffer) and `p * len(T) ≤ INT_MAX` (whatever the
buffers held before), the search prints, in ascending order, exactly the offsets
of each worker's range `[floor(k*len/p), floor((k+1)*len/p))` except the last
offset of that range; with one worker the output is `0, 1, ..., len(T) - 2`. -/
theorem C14_empty_pattern (heap : Nat → Nat → Byte) (T : List Byte) (p : Nat)
    (hT : nul_free T) (hp1 : 1 ≤ p) (hpL : p ≤ T.length)
    (hfit : p * T.length ≤ 2147483647) :
    ∃ out, search_run heap T [] p = some out
      ∧ List.Sorted (· < ·) out
      ∧ (∀ x, x ∈ out ↔ ∃ k j : Nat, k < p ∧ x = (j : Int)
            ∧ spec_boundary k T.length p ≤ j ∧ j + 1 < spec_boundary (k + 1) T.length p)
      ∧ (p = 1 → out = (List.range (T.length - 1)).map (fun (i : Nat) => (i : Int))) := by
  have hp : p ≤ 2147483647 :=
    Nat.le_trans (Nat.le_mul_of_pos_right p (by omega)) hfit
  have hn : ∀ k, k < p → spec_boundary k T.length p < spec_boundary (k + 1) T.length p := by
    intro k _
    rw [spec_boundary_succ k T.length p hp1]
    have : 1 ≤ T.length / p := (Nat.one_le_div_iff hp1).mpr hpL
    omega
  have hw : ∀ k, k < p → worker_out heap T [] p k
      = some ((List.range (spec_boundary (k + 1) T.length p
                  - spec_boundary k T.length p - 1)).map
          (fun (i : Nat) => ((spec_boundary k T.length p + i : Nat) : Int))) :=
    fun k hk => worker_out_empty_pattern heap T p hT hp1 hp hfit k hk (hn k hk)
  have hrun := run_from_some heap T [] p p 0 (fun k _ hk => ⟨_, hw k (by omega)⟩)
  have hrun0 : run_from heap T [] p p 0 0
      = some ((List.range' 0 p).map (fun k => (worker_out heap T [] p k).getD [])) := hrun
  rw [← List.range_eq_range'] at hrun0
  obtain ⟨_, hnn, hrange⟩ := run_invariants heap T [] p (by decide) hp1 hp _ hrun0
  refine ⟨_, by unfold search_run; rw [hrun0, Option.map_some'],
    flatten_sorted (wrapInt T.length) p _ hnn hrange, ?_, ?_⟩
  · intro x
    constructor
    · intro hx
      obtain ⟨l, hl, hxl⟩ := List.mem_flatten.mp hx
      obtain ⟨k, hk, rfl⟩ := List.mem_map.mp hl
      have hk := List.mem_range.mp hk
      rw [hw k hk, Option.getD_some] at hxl
      obtain ⟨i, hi, rfl⟩ := List.mem_map.mp hxl
      have hi := List.mem_range.mp hi
      exact ⟨k, spec_boundary k T.length p + i, hk, rfl, by omega, by omega⟩
    · rintro ⟨k, j, hk, rfl, hj1, hj2⟩
      refine List.mem_flatten.mpr ⟨_, List.mem_map.mpr ⟨k, List.mem_range.mpr hk, rfl⟩, ?_⟩
      rw [hw k hk, Option.getD_some]
      refine List.mem_map.mpr ⟨j - spec_boundary k T.length p, List.mem_range.mpr (by omega), ?_⟩
      congr 1
      omega
  · intro h1
    subst h1
    have h0 := hw 0 (by decide)
    rw [spec_boundary_zero, spec_boundary_last T.length 1 (by decide)] at h0
    have hr1 : List.range 1 = [0] := rfl
    simp only [hr1, List.map_cons, List.map_nil, h0, Option.getD_some,
      List.flatten_cons, List.flatten_nil, List.append_nil, Nat.sub_zero, Nat.zero_add]

/-- C14, witness: the empty pattern on `"abcdefg"` with three workers (ranges
`[0, 2)`, `[2, 4)`, `[4, 7)`) prints `0, 2, 4, 5`. -/
theorem C14_empty_pattern_witness :
    search_run (fun _ _ => 97) [97, 98, 99, 100, 101, 102, 103] [] 3 = some [0, 2, 4, 5]
    ∧ ∃ out, search_run (fun _ _ => 97) [97, 98, 99, 100, 101, 102, 103] [] 3 = some out
      ∧ List.Sorted (· < ·) out
      ∧ (∀ x, x ∈ out ↔ ∃ k j : Nat, k < 3 ∧ x = (j : Int)
            ∧ spec_boundary k 7 3 ≤ j ∧ j + 1 < spec_boundary (k + 1) 7 3)
      ∧ (3 = 1 → out = (List.range (7 - 1)).map (fun (i : Nat) => (i : Int))) :=
  ⟨by decide,
   C14_empty_pattern (fun _ _ => 97) [97, 98, 99, 100, 101, 102, 103] 3
    (by decide) (by decide) (by decide) (by decide)⟩

/-- C19: in a run that produces a result, when the root gives worker `k` the
empty chunk because `start + patternLength > fileSize`, that worker and every
later worker have an empty chunk string and report nothing, and no occurrence of
the pattern in the file starts at an offset `≥ start`: no match is lost.  The
same holds for any buffer and any later start given to the loader. -/
theorem C19_empty_chunk (heap : Nat → Nat → Byte) (file pattern : List Byte) (p : Nat)
    (hpat : nul_free pattern) (hp1 : 1 ≤ p) (hp : p ≤ 2147483647)
    (outs : List (List Int)) (hrun : run_from heap file pattern p p 0 0 = some outs)
    (k : Nat) (hk : k < p)
    (hempty : num_elements (wrapInt file.length) p k + (pattern.length : Int)
                > (file.length : Int)) :
    (∀ k2, k ≤ k2 → k2 < p →
        cstr (worker_chunk (heap k2) file pattern
            (num_elements (wrapInt file.length) p k2)
            (number_of_char k2 (wrapInt file.length) p)) = []
        ∧ outs.getD k2 [] = [])
    ∧ (∀ j : Nat, num_elements (wrapInt file.length) p k ≤ (j : Int) →
        ¬ occurs_at file pattern j)
    ∧ (∀ (buf : List Byte) (start n : Nat),
        num_elements (wrapInt file.length) p k ≤ (start : Int) →
        cstr (load_chunk buf file start n pattern.length) = []) := by
  obtain ⟨houts, hnn, _⟩ := run_invariants heap file pattern p hpat hp1 hp outs hrun
  have h0 : run_from heap file pattern p p 0 (num_elements (wrapInt file.length) p 0)
      = some outs := hrun
  have hs0 := num_elements_nonneg (wrapInt file.length) p hnn k (by omega)
  refine ⟨?_, ?_, ?_⟩
  · intro k2 hk2 hk2p
    have hmono := num_elements_mono (wrapInt file.length) p hnn k k2 hk2 (by omega)
    have hc : cstr (worker_chunk (heap k2) file pattern
        (num_elements (wrapInt file.length) p k2)
        (number_of_char k2 (wrapInt file.length) p)) = [] := by
      unfold worker_chunk
      exact cstr_load_chunk_empty _ _ _ _ _ (by omega)
    refine ⟨hc, ?_⟩
    obtain ⟨o, ho⟩ := (run_from_inv heap file pattern p p 0 outs h0).1 k2
      (Nat.zero_le k2) (by omega)
    rw [houts, List.getD_eq_getElem _ _ (by simp; exact hk2p)]
    simp only [List.getElem_map, List.getElem_range]
    rw [ho, Option.getD_some, worker_step_eq _ _ _ _ _ o ho]
    exact reported_of_empty_chunk _ _ _ _ hc
  · intro j hj hocc
    have := hocc.1
    omega
  · intro buf start n hstart
    exact cstr_load_chunk_empty _ _ _ _ _ (by omega)

/-- C19, witness: `"abcabcabc"`, pattern `"bca"`, nine workers; worker 7 starts
at offset 7 and `7 + 3 > 9`, so workers 7 and 8 get the empty chunk. -/
theorem C19_empty_chunk_witness :
    run_from (fun _ _ => 97) [97, 98, 99, 97, 98, 99, 97, 98, 99] [98, 99, 97] 9 9 0 0
      = some [[], [1], [], [], [4], [], [], [], []]
    ∧ (∀ j : Nat,
        num_elements (wrapInt (([97, 98, 99, 97, 98, 99, 97, 98, 99] : List Byte).length : Int))
          9 7 ≤ (j : Int) →
        ¬ occurs_at [97, 98, 99, 97, 98, 99, 97, 98, 99] [98, 99, 97] j) :=
  ⟨by decide,
   (C19_empty_chunk (fun _ _ => 97) [97, 98, 99, 97, 98, 99, 97, 98, 99] [98, 99, 97] 9
      (by decide) (by decide) (by decide) [[], [1], [], [], [4], [], [], [], []]
      (by decide) 7 (by decide) (by decide)).2.1⟩

end Search

/-!
## The matcher of `test.c`
-/

namespace SearchTest

open Search

theorem charAt_strlen (s : List Byte) : charAt s (strlen s) = 0 := by
  induction s with
  | nil => rfl
  | cons a t ih =>
    by_cases ha : a = 0
    · subst ha
      rfl
    · have h1 : strlen (a :: t) = strlen t + 1 := by
        unfold strlen
        rw [List.takeWhile_cons_of_pos (by simpa using ha)]
        rfl
      rw [h1]
      exact ih

theorem charAt_ne_zero (s : List Byte) (k : Nat) (hk : k < strlen s) : charAt s k ≠ 0 := by
  rw [charAt_cstr s k hk]
  have hk2 : k < (cstr s).length := hk
  rw [List.getD_eq_getElem _ _ hk2]
  exact cstr_nul_free s _ (List.getElem_mem hk2)

theorem inner_loop_eq (chunk pattern : List Byte) (i : Nat) :
    ∀ r j c, i + j ≤ strlen chunk → j + r ≤ strlen pattern →
      inner_loop chunk pattern i r j c = some (Search.inner_loop chunk pattern i r j c) := by
  intro r
  induction r with
  | zero => intro j c _ _; rfl
  | succ r ih =>
    intro j c hij hjr
    have hread : readAt chunk (i + j) = some (charAt chunk (i + j)) := by
      unfold readAt
      rw [if_pos hij]
    rw [inner_loop, Search.inner_loop, hread, Option.some_bind]
    by_cases hne : charAt pattern j ≠ charAt chunk (i + j)
    · rw [if_pos hne, if_pos (Or.inr hne)]
    · have heq : charAt pattern j = charAt chunk (i + j) := not_not.mp hne
      have hp0 : charAt pattern j ≠ 0 := charAt_ne_zero pattern j (by omega)
      have hlt : i + j < strlen chunk := by
        rcases Nat.lt_or_ge (i + j) (strlen chunk) with h | h
        · exact h
        · exfalso
          have hEq : i + j = strlen chunk := by omega
          rw [hEq, charAt_strlen] at heq
          exact hp0 heq
      rw [if_neg hne, if_neg (by
        intro h
        rcases h with h | h
        · omega
        · exact hne h)]
      exact ih (j + 1) (c + 1) (by omega) (by omega)

theorem outer_loop_eq (chunk pattern : List Byte) :
    ∀ r i st, i + r = strlen chunk →
      outer_loop chunk pattern r i st = some (Search.outer_loop chunk pattern r i st) := by
  intro r
  induction r with
  | zero => intro i st _; rfl
  | succ r ih =>
    intro i st hir
    rw [outer_loop, Search.outer_loop,
      inner_loop_eq chunk pattern i (strlen pattern) 0 0 (by omega) (by omega),
      Option.some_bind]
    exact ih (i + 1) _ (by omega)

end SearchTest

/-!
## The split of `steady.c`
-/

namespace Steady

open Search

theorem number_of_checks_eq (id size p : Nat) (hp : 1 ≤ p) (hsize : size ≤ 2147483647) :
    number_of_checks id size p = ((size / p + if id < size % p then 1 else 0 : Nat) : Int) := by
  have hdiv : Int.tdiv (size : Int) (p : Int) = ((size / p : Nat) : Int) :=
    (Int.ofNat_tdiv size p).symm
  have hmod : Int.tmod (size : Int) (p : Int) = ((size % p : Nat) : Int) :=
    (Int.ofNat_tmod size p).symm
  have hq : size / p ≤ size := Nat.div_le_self _ _
  unfold number_of_checks
  rw [hdiv, hmod]
  by_cases h : id < size % p
  · rw [if_pos (by exact_mod_cast h), if_pos h]
    have hp2 : 2 ≤ p := by
      rcases Nat.lt_or_ge p 2 with h1 | h1
      · have h2 : p = 1 := by omega
        rw [h2, Nat.mod_one] at h
        omega
      · exact h1
    have hq2 : size / p ≤ size / 2 := Nat.div_le_div_left hp2 (by decide)
    have hw : wrapInt (((size / p : Nat) : Int) + 1) = ((size / p : Nat) : Int) + 1 := by
      generalize size / p = q at hq hq2
      apply wrapInt_of_range <;> omega
    rw [hw]
    push_cast
    rfl
  · rw [if_neg (by exact_mod_cast h), if_neg h]
    rfl

theorem sum_split (q r : Nat) :
    ∀ n, ∑ id in Finset.range n, (q + if id < r then 1 else 0) = n * q + min n r := by
  intro n
  induction n with
  | zero => simp
  | succ n ih =>
    rw [Finset.sum_range_succ, ih]
    by_cases h : n < r
    · rw [if_pos h, Nat.min_eq_left (by omega), Nat.min_eq_left (by omega)]
      ring
    · rw [if_neg h, Nat.min_eq_right (by omega), Nat.min_eq_right (by omega)]
      ring

end Steady

namespace SearchTest

open Search

/-- C20: for every buffer `chunk`, every buffer `pattern`, every array `res` and
every `start_index`, `check_pattern` of `test.c` (no bound test) has a result,
so it never reads `chunk` past its terminating NUL, and that result is the
final state of `check_pattern` of `search.c`: the same count `valid`, the same
array `res`, hence the same reported offsets. -/
theorem C20_test_matcher (res : Nat → Int) (start_index : Int) (chunk pattern : List Byte) :
    check_pattern res start_index chunk pattern
        = some (Search.check_pattern res start_index chunk pattern)
    ∧ (check_pattern res start_index chunk pattern).map ScanState.valid
        = some (Search.check_pattern res start_index chunk pattern).valid
    ∧ (check_pattern res start_index chunk pattern).map reported
        = some (reported (Search.check_pattern res start_index chunk pattern)) := by
  have h : check_pattern res start_index chunk pattern
      = some (Search.check_pattern res start_index chunk pattern) :=
    outer_loop_eq chunk pattern (strlen chunk) 0 _ (by omega)
  rw [h]
  exact ⟨rfl, rfl, rfl⟩

end SearchTest

namespace Steady

open Search

/-- C18: for every `size ≥ 0` that an `int` holds and every process count
`p ≥ 1`, `number_of_checks(id, size, p)` is at least `floor(size / p)` for every
`id` in `[0, p)`, it is `floor(size / p) + 1` exactly for the ids below
`size mod p` and `floor(size / p)` for the others, the values summed over `id` in
`[0, p)` give `size`, and any two of them differ by at most 1. -/
theorem C18_number_of_checks (size p : Nat) (hp : 1 ≤ p) (hsize : size ≤ 2147483647) :
    (∀ id : Nat, id < p → ((size / p : Nat) : Int) ≤ number_of_checks id size p)
    ∧ (∀ id : Nat, id < p →
        number_of_checks id size p
          = ((size / p : Nat) : Int) + (if id < size % p then 1 else 0))
    ∧ ∑ id in Finset.range p, number_of_checks (id : Nat) size p = (size : Int)
    ∧ (∀ i j : Nat, i < p → j < p →
        |number_of_checks i size p - number_of_checks j size p| ≤ 1) := by
  have hval : ∀ id : Nat, number_of_checks id size p
      = ((size / p : Nat) : Int) + (if id < size % p then 1 else 0) := by
    intro id
    rw [number_of_checks_eq id size p hp hsize]
    push_cast
    rfl
  refine ⟨?_, fun id _ => hval id, ?_, ?_⟩
  · intro id _
    rw [hval id]
    split_ifs <;> omega
  · have hsum : ∑ id in Finset.range p, number_of_checks (id : Nat) size p
        = ((∑ id in Finset.range p, (size / p + if id < size % p then 1 else 0) : Nat) : Int) := by
      rw [Nat.cast_sum]
      exact Finset.sum_congr rfl (fun id _ => number_of_checks_eq id size p hp hsize)
    rw [hsum, sum_split, Nat.min_eq_right (Nat.le_of_lt (Nat.mod_lt _ hp))]
    exact_mod_cast Nat.div_add_mod size p
  · intro i j _ _
    rw [hval i, hval j, abs_le]
    constructor <;> split_ifs <;> omega

/-- C18, witness: 5 tasks on 3 processes are split as 2, 2, 1. -/
theorem C18_number_of_checks_witness :
    (List.range 3).map (fun id : Nat => number_of_checks id 5 3) = [2, 2, 1]
    ∧ ∑ id in Finset.range 3, number_of_checks (id : Nat) (5 : Nat) (3 : Nat) = ((5 : Nat) : Int) :=
  ⟨by decide, (C18_number_of_checks 5 3 (by decide) (by decide)).2.2.1⟩

end Steady

/-!
## The rectangle rule of `natlog.c`
-/

namespace Natlog

open Search

/-- The term that the loop adds for segment `i`. -/
theorem ln_loop_eq (n p : Nat) (dx : ℚ) (hp : 1 ≤ p) (hfit : n + p ≤ 2147483647) :
    ∀ fuel i (s : ℚ), 1 ≤ i → i ≤ n + p → 1 ≤ fuel → n + 1 < fuel + i →
      ln_loop n p dx fuel (i : Nat) s
        = some (s + ∑ k in (Finset.Icc i n).filter (fun k => p ∣ k - i),
            1 / (1 + dx * ((k : ℚ) - 1 / 2))) := by
  intro fuel
  induction fuel with
  | zero =>
    intro i s _ _ hf1 _
    omega
  | succ fuel ih =>
    intro i s h1 hi _ hf
    rw [ln_loop]
    by_cases hin : i ≤ n
    · have hw : wrapInt ((i : Int) + (p : Int)) = ((i + p : Nat) : Int) := by
        push_cast
        apply wrapInt_of_range <;> omega
      rw [if_pos (by exact_mod_cast hin), hw, ih (i + p) _ (by omega) (by omega) (by omega) (by omega)]
      have hset : (Finset.Icc i n).filter (fun k => p ∣ k - i)
          = insert i ((Finset.Icc (i + p) n).filter (fun k => p ∣ k - (i + p))) := by
        ext k
        simp only [Finset.mem_filter, Finset.mem_Icc, Finset.mem_insert]
        constructor
        · rintro ⟨⟨hk1, hk2⟩, hd⟩
          rcases Nat.eq_or_lt_of_le hk1 with h | h
          · exact Or.inl h.symm
          · right
            have hge : p ≤ k - i := Nat.le_of_dvd (by omega) hd
            refine ⟨⟨by omega, hk2⟩, ?_⟩
            have h2 : k - (i + p) = (k - i) - p := by omega
            rw [h2]
            exact Nat.dvd_sub' hd (dvd_refl p)
        · rintro (h | ⟨⟨hk1, hk2⟩, hd⟩)
          · subst h
            exact ⟨⟨le_refl _, hin⟩, by simp⟩
          · refine ⟨⟨by omega, hk2⟩, ?_⟩
            have h2 : k - i = (k - (i + p)) + p := by omega
            rw [h2]
            exact Dvd.dvd.add hd (dvd_refl p)
      have hnot : i ∉ (Finset.Icc (i + p) n).filter (fun k => p ∣ k - (i + p)) := by
        simp only [Finset.mem_filter, Finset.mem_Icc]
        omega
      rw [hset, Finset.sum_insert hnot, Int.cast_natCast, add_assoc]
    · rw [if_neg (by
        intro h
        exact hin (by exact_mod_cast h))]
      have hempty : Finset.Icc i n = ∅ := Finset.Icc_eq_empty (by omega)
      rw [hempty, Finset.filter_empty, Finset.sum_empty, add_zero]

/-- The segments of process `id`: the class of `id` modulo `p`. -/
theorem class_eq (n p id : Nat) (hid : id < p) :
    (Finset.Icc (id + 1) n).filter (fun k => p ∣ k - (id + 1))
      = (Finset.Icc 1 n).filter (fun k => (k - 1) % p = id) := by
  ext k
  simp only [Finset.mem_filter, Finset.mem_Icc]
  constructor
  · rintro ⟨⟨hk1, hk2⟩, c, hc⟩
    refine ⟨⟨by omega, hk2⟩, ?_⟩
    have h2 : k - 1 = id + p * c := by omega
    rw [h2, Nat.add_mul_mod_self_left, Nat.mod_eq_of_lt hid]
  · rintro ⟨⟨hk1, hk2⟩, hm⟩
    have hdm := Nat.div_add_mod (k - 1) p
    rw [hm] at hdm
    refine ⟨⟨by omega, hk2⟩, (k - 1) / p, ?_⟩
    omega

/-- With `num_segments = INT_MAX` the loop test `i <= num_segments` holds for
every `int`. -/
theorem ln_loop_spins (p : Int) (dx : ℚ) :
    ∀ fuel (i : Int) (s : ℚ), -2147483648 ≤ i → i ≤ 2147483647 →
      ln_loop 2147483647 p dx fuel i s = none := by
  intro fuel
  induction fuel with
  | zero => intro i s _ _; rfl
  | succ fuel ih =>
    intro i s _ h2
    rw [ln_loop, if_pos h2]
    exact ih _ _ (wrapInt_range _).1 (wrapInt_range _).2

theorem approximate_ln_eq (n p upper : Nat) (hp : 1 ≤ p) (hfit : n + p ≤ 2147483647)
    (fuel : Nat) (hfuel : n + 1 ≤ fuel) (id : Nat) (hid : id < p) :
    approximate_ln fuel n id p upper
      = some ((((upper : ℚ) - 1) / (n : ℚ))
          * ∑ k in (Finset.Icc 1 n).filter (fun k => (k - 1) % p = id),
              1 / (1 + (((upper : ℚ) - 1) / (n : ℚ)) * ((k : ℚ) - 1 / 2))) := by
  have hw : wrapInt ((id : Int) + 1) = ((id + 1 : Nat) : Int) := by
    push_cast
    apply wrapInt_of_range <;> omega
  unfold approximate_ln
  rw [hw, ln_loop_eq n p _ hp hfit fuel (id + 1) 0 (by omega) (by omega) (by omega) (by omega),
    class_eq n p id hid, Option.map_some', zero_add, Int.cast_natCast, Int.cast_natCast]

end Natlog

namespace Natlog

open Search

/-- C17, counterexample: with `num_segments = INT_MAX`, one process and
`upper = 2`, the loop of `approximate_ln` never ends (`i <= num_segments` holds
for every `int`, and `i += p` wraps): whatever the fuel, there is no value. -/
theorem C17_counterexample :
    ((1 : Int) ≤ 2147483647 ∧ (1 : Int) ≤ 1 ∧ (1 : Int) ≤ 2)
    ∧ ∀ fuel, approximate_ln fuel 2147483647 0 1 2 = none := by
  refine ⟨by decide, fun fuel => ?_⟩
  unfold approximate_ln
  rw [ln_loop_spins 1 _ fuel _ 0 (wrapInt_range _).1 (wrapInt_range _).2]
  rfl

/-- C17 (amended): for every `num_segments = n ≥ 1`, process count `p ≥ 1` and
integer `upper ≥ 1` with `n + p ≤ INT_MAX`, no midpoint is zero, every segment
index `1..n` belongs to exactly one process id in `[0, p)` (the one with
`(i - 1) mod p = id`), `approximate_ln` returns for each id (with fuel for
`n + 1` loop tests) `dx` times the sum over its segments, and in exact
arithmetic the sum over `id` of these values is the midpoint rectangle rule
`dx * sum_{i=1..n} 1 / (1 + dx*(i - 1/2))`, `dx = (upper - 1) / n`, whatever `p`
is. -/
theorem C17_midpoint_rule (n p upper : Nat) (hn : 1 ≤ n) (hp : 1 ≤ p) (hu : 1 ≤ upper)
    (hfit : n + p ≤ 2147483647) (fuel : Nat) (hfuel : n + 1 ≤ fuel) :
    ((n : ℚ) ≠ 0
      ∧ ∀ i : Nat, 1 ≤ i → i ≤ n →
          0 < 1 + (((upper : ℚ) - 1) / (n : ℚ)) * ((i : ℚ) - 1 / 2))
    ∧ (∀ i : Nat, 1 ≤ i → i ≤ n → ∃! id, id < p ∧ (i - 1) % p = id)
    ∧ (∀ id : Nat, id < p →
        approximate_ln fuel n id p upper
          = some ((((upper : ℚ) - 1) / (n : ℚ))
              * ∑ k in (Finset.Icc 1 n).filter (fun k => (k - 1) % p = id),
                  1 / (1 + (((upper : ℚ) - 1) / (n : ℚ)) * ((k : ℚ) - 1 / 2))))
    ∧ ∑ id in Finset.range p, (approximate_ln fuel n (id : Nat) p upper).getD 0
        = midpoint_rule n upper := by
  refine ⟨⟨?_, ?_⟩, ?_, fun id hid => approximate_ln_eq n p upper hp hfit fuel hfuel id hid, ?_⟩
  · have : (0 : ℚ) < (n : ℚ) := by exact_mod_cast hn
    exact ne_of_gt this
  · intro i hi _
    have h1 : (0 : ℚ) ≤ ((upper : ℚ) - 1) / (n : ℚ) := by
      apply div_nonneg
      · have : (1 : ℚ) ≤ (upper : ℚ) := by exact_mod_cast hu
        linarith
      · exact Nat.cast_nonneg n
    have h2 : (0 : ℚ) ≤ (i : ℚ) - 1 / 2 := by
      have : (1 : ℚ) ≤ (i : ℚ) := by exact_mod_cast hi
      linarith
    have h3 := mul_nonneg h1 h2
    linarith
  · intro i _ _
    exact ⟨(i - 1) % p, ⟨Nat.mod_lt _ hp, rfl⟩, fun id h => h.2.symm⟩
  · have hsum : ∑ id in Finset.range p, (approximate_ln fuel n (id : Nat) p upper).getD 0
        = ∑ id in Finset.range p, (((upper : ℚ) - 1) / (n : ℚ))
            * ∑ k in (Finset.Icc 1 n).filter (fun k => (k - 1) % p = id),
                1 / (1 + (((upper : ℚ) - 1) / (n : ℚ)) * ((k : ℚ) - 1 / 2)) := by
      refine Finset.sum_congr rfl (fun id hid => ?_)
      rw [approximate_ln_eq n p upper hp hfit fuel hfuel id (Finset.mem_range.mp hid)]
      rfl
    rw [hsum, ← Finset.mul_sum]
    unfold midpoint_rule
    congr 1
    exact Finset.sum_fiberwise_of_maps_to
      (fun k _ => Finset.mem_range.mpr (Nat.mod_lt _ hp)) _

/-- C17, witness: four segments on two processes up to `upper = 3`: process 0
returns `28/45`, process 1 returns `36/77`, and the two values add up to the
midpoint rule. -/
theorem C17_midpoint_rule_witness :
    approximate_ln 5 4 0 2 3 = some (28 / 45)
    ∧ approximate_ln 5 4 1 2 3 = some (36 / 77)
    ∧ ∑ id in Finset.range 2, (approximate_ln 5 (4 : Nat) (id : Nat) (2 : Nat) (3 : Nat)).getD 0
        = midpoint_rule 4 3 :=
  ⟨by norm_num [approximate_ln, ln_loop, wrapInt],
   by norm_num [approximate_ln, ln_loop, wrapInt],
   (C17_midpoint_rule 4 2 3 (by decide) (by decide) (by decide) (by decide) 5
      (by decide)).2.2.2⟩

end Natlog

/-!
## The critical section of `redact.c`
-/

namespace Redact

open Search

theorem update_cell_flag (id : Int) (st : Shared) (k j : Nat) :
    (update_cell id st k).flag j
      = if j = k ∧ (st.flag k = -1 ∨ st.flag k < id) then id else st.flag j := by
  unfold update_cell
  by_cases h1 : st.flag k = -1
  · rw [if_pos h1]
    by_cases hj : j = k
    · subst hj
      simp [h1]
    · simp [hj, Function.update_noteq hj]
  · rw [if_neg h1]
    by_cases h2 : st.flag k < id
    · rw [if_pos h2]
      by_cases hj : j = k
      · subst hj
        simp [h2]
      · simp [hj, Function.update_noteq hj]
    · rw [if_neg h2]
      simp [h1, h2]

theorem update_cell_text (id : Int) (st : Shared) (k j : Nat) :
    (update_cell id st k).text j
      = if j = k ∧ (st.flag k = -1 ∨ st.flag k < id) then redact_char id else st.text j := by
  unfold update_cell
  by_cases h1 : st.flag k = -1
  · rw [if_pos h1]
    by_cases hj : j = k
    · subst hj
      simp [h1]
    · simp [hj, Function.update_noteq hj]
  · rw [if_neg h1]
    by_cases h2 : st.flag k < id
    · rw [if_pos h2]
      by_cases hj : j = k
      · subst hj
        simp [h2]
      · simp [hj, Function.update_noteq hj]
    · rw [if_neg h2]
      simp [h1, h2]

theorem update_loop_flag (id : Int) :
    ∀ r k0 (st : Shared) (j : Nat), (update_loop id r k0 st).flag j
      = if k0 ≤ j ∧ j < k0 + r ∧ (st.flag j = -1 ∨ st.flag j < id) then id
        else st.flag j := by
  intro r
  induction r with
  | zero =>
    intro k0 st j
    rw [update_loop, if_neg (by omega)]
  | succ r ih =>
    intro k0 st j
    rw [update_loop, ih]
    by_cases hj : j = k0
    · subst hj
      rw [if_neg (fun x => by omega), update_cell_flag]
      by_cases h : st.flag j = -1 ∨ st.flag j < id
      · rw [if_pos ⟨rfl, h⟩, if_pos ⟨le_refl _, by omega, h⟩]
      · rw [if_neg (fun x => h x.2), if_neg (fun x => h x.2.2)]
    · have hf : (update_cell id st k0).flag j = st.flag j := by
        rw [update_cell_flag, if_neg (fun h => hj h.1)]
      rw [hf]
      by_cases h : k0 ≤ j ∧ j < k0 + (r + 1) ∧ (st.flag j = -1 ∨ st.flag j < id)
      · rw [if_pos h, if_pos ⟨by omega, by omega, h.2.2⟩]
      · rw [if_neg h, if_neg (fun x => h ⟨by omega, by omega, x.2.2⟩)]

theorem update_loop_text (id : Int) :
    ∀ r k0 (st : Shared) (j : Nat), (update_loop id r k0 st).text j
      = if k0 ≤ j ∧ j < k0 + r ∧ (st.flag j = -1 ∨ st.flag j < id) then redact_char id
        else st.text j := by
  intro r
  induction r with
  | zero =>
    intro k0 st j
    rw [update_loop, if_neg (by omega)]
  | succ r ih =>
    intro k0 st j
    rw [update_loop, ih]
    by_cases hj : j = k0
    · subst hj
      rw [if_neg (fun x => by omega), update_cell_text]
      by_cases h : st.flag j = -1 ∨ st.flag j < id
      · rw [if_pos ⟨rfl, h⟩, if_pos ⟨le_refl _, by omega, h⟩]
      · rw [if_neg (fun x => h x.2), if_neg (fun x => h x.2.2)]
    · have hf : (update_cell id st k0).flag j = st.flag j := by
        rw [update_cell_flag, if_neg (fun h => hj h.1)]
      have ht : (update_cell id st k0).text j = st.text j := by
        rw [update_cell_text, if_neg (fun h => hj h.1)]
      rw [hf, ht]
      by_cases h : k0 ≤ j ∧ j < k0 + (r + 1) ∧ (st.flag j = -1 ∨ st.flag j < id)
      · rw [if_pos h, if_pos ⟨by omega, by omega, h.2.2⟩]
      · rw [if_neg h, if_neg (fun x => h ⟨by omega, by omega, x.2.2⟩)]

theorem apply_section_flag (m : Nat) (st : Shared) (u : Int × Nat) (j : Nat) :
    (apply_section m st u).flag j
      = if covers m u j ∧ (st.flag j = -1 ∨ st.flag j < u.1) then u.1 else st.flag j := by
  unfold apply_section covers
  rw [update_loop_flag]
  simp only [and_assoc]

theorem apply_section_text (m : Nat) (st : Shared) (u : Int × Nat) (j : Nat) :
    (apply_section m st u).text j
      = if covers m u j ∧ (st.flag j = -1 ∨ st.flag j < u.1) then redact_char u.1
        else st.text j := by
  unfold apply_section covers
  rw [update_loop_text]
  simp only [and_assoc]

theorem apply_section_comm (m : Nat) (a b : Int × Nat) (ha : 0 ≤ a.1) (hb : 0 ≤ b.1)
    (st : Shared) :
    apply_section m (apply_section m st a) b = apply_section m (apply_section m st b) a := by
  apply Shared.ext
  · funext j
    simp only [apply_section_text, apply_section_flag]
    by_cases hca : covers m a j <;> by_cases hcb : covers m b j
    · simp only [hca, hcb, true_and]
      split_ifs <;> first | rfl | (exfalso; omega) | exact congrArg redact_char (by omega)
    · simp only [hca, hcb, true_and, false_and, if_false]
    · simp only [hca, hcb, true_and, false_and, if_false]
    · simp only [hca, hcb, false_and, if_false]
  · funext j
    simp only [apply_section_flag]
    by_cases hca : covers m a j <;> by_cases hcb : covers m b j
    · simp only [hca, hcb, true_and]
      split_ifs <;> omega
    · simp only [hca, hcb, true_and, false_and, if_false]
    · simp only [hca, hcb, true_and, false_and, if_false]
    · simp only [hca, hcb, false_and, if_false]

theorem foldl_perm (m : Nat) (us vs : List (Int × Nat)) (hperm : us.Perm vs)
    (hid : ∀ u ∈ us, 0 ≤ u.1) (st : Shared) :
    us.foldl (apply_section m) st = vs.foldl (apply_section m) st :=
  List.Perm.foldl_eq' hperm
    (fun x hx y hy z => apply_section_comm m x y (hid x hx) (hid y hy) z) st

/-- What the arrays hold at cell `k` after the sections `us` ran from the
initial arrays. -/
theorem schedule_inv (m : Nat) (input : List Byte) (us : List (Int × Nat))
    (hid : ∀ u ∈ us, 0 ≤ u.1) (k : Nat) :
    ((us.foldl (apply_section m) (initial input)).flag k = -1
        ∨ 0 ≤ (us.foldl (apply_section m) (initial input)).flag k)
    ∧ ((us.foldl (apply_section m) (initial input)).flag k = -1
        ↔ ∀ u ∈ us, ¬ covers m u k)
    ∧ (∀ u ∈ us, covers m u k → u.1 ≤ (us.foldl (apply_section m) (initial input)).flag k)
    ∧ ((us.foldl (apply_section m) (initial input)).flag k ≠ -1 →
        ∃ u ∈ us, covers m u k ∧ u.1 = (us.foldl (apply_section m) (initial input)).flag k)
    ∧ (us.foldl (apply_section m) (initial input)).text k
        = if (us.foldl (apply_section m) (initial input)).flag k = -1 then input.getD k 0
          else redact_char ((us.foldl (apply_section m) (initial input)).flag k) := by
  induction us using List.reverseRecOn with
  | nil =>
    refine ⟨Or.inl rfl, ⟨fun _ u hu => absurd hu (List.not_mem_nil u), fun _ => rfl⟩,
      fun u hu => absurd hu (List.not_mem_nil u), fun h => absurd rfl h, ?_⟩
    show input.getD k 0 = if (-1 : Int) = -1 then input.getD k 0 else _
    rw [if_pos rfl]
  | append_singleton us u ih =>
    have hid1 : ∀ v ∈ us, 0 ≤ v.1 := fun v hv => hid v (List.mem_append_left _ hv)
    have hu : 0 ≤ u.1 := hid u (List.mem_append_right _ (List.mem_singleton_self u))
    obtain ⟨h1, h2, h3, h4, h5⟩ := ih hid1
    rw [List.foldl_append, List.foldl_cons, List.foldl_nil]
    generalize us.foldl (apply_section m) (initial input) = st at h1 h2 h3 h4 h5
    rw [apply_section_flag, apply_section_text]
    by_cases hc : covers m u k ∧ (st.flag k = -1 ∨ st.flag k < u.1)
    · rw [if_pos hc, if_pos hc, if_neg (by omega)]
      refine ⟨Or.inr hu, ⟨fun h => by omega, fun h => ?_⟩, ?_, ?_, rfl⟩
      · exact absurd hc.1 (h u (List.mem_append_right _ (List.mem_singleton_self u)))
      · intro v hv hcov
        rcases List.mem_append.mp hv with hv | hv
        · have hle := h3 v hv hcov
          rcases hc.2 with hf | hf
          · exact absurd hcov (h2.mp hf v hv)
          · omega
        · rw [List.mem_singleton.mp hv]
      · intro _
        exact ⟨u, List.mem_append_right _ (List.mem_singleton_self u), hc.1, rfl⟩
    · rw [if_neg hc, if_neg hc]
      refine ⟨h1, ⟨fun h v hv => ?_, fun h => ?_⟩, ?_, ?_, h5⟩
      · rcases List.mem_append.mp hv with hv | hv
        · exact h2.mp h v hv
        · rw [List.mem_singleton.mp hv]
          exact fun hcov => hc ⟨hcov, Or.inl h⟩
      · exact h2.mpr (fun v hv => h v (List.mem_append_left _ hv))
      · intro v hv hcov
        rcases List.mem_append.mp hv with hv | hv
        · exact h3 v hv hcov
        · rw [List.mem_singleton.mp hv] at hcov ⊢
          have hn : ¬ (st.flag k = -1 ∨ st.flag k < u.1) := fun hx => hc ⟨hcov, hx⟩
          omega
      · intro hne
        obtain ⟨w, hw, hcw, hwe⟩ := h4 hne
        exact ⟨w, List.mem_append_left _ hw, hcw, hwe⟩

theorem all_sections_ids (num_threads : Nat) (pattern input : List Byte) :
    ∀ u ∈ all_sections num_threads pattern input, 0 ≤ u.1 := by
  intro u hu
  unfold all_sections at hu
  rw [List.mem_flatten] at hu
  obtain ⟨l, hl, hul⟩ := hu
  rw [List.mem_map] at hl
  obtain ⟨i, _, rfl⟩ := hl
  unfold thread_sections at hul
  rw [List.mem_map] at hul
  obtain ⟨s, _, rfl⟩ := hul
  exact Int.ofNat_nonneg i

end Redact

namespace Redact

open Search

/-- C15, failing input: one thread, pattern `"ab"`, text `"ab"`.  The pattern
occurs at offset 0, but the only thread has `last = file_size`, its test
`last + pattern_length - 2 < file_size` is `2 < 2`, its chunk is the empty
string and the output is `"ab"`, unchanged.  The last thread skips its chunk in
the same way for every pattern of two or more bytes: with three threads, pattern
`"aa"` and nine `a`, the last byte of the output is still `a`. -/
theorem C15_last_thread_skips :
    occurs_at [97, 98] [97, 98] 0
    ∧ thread_chunk [97, 98] [97, 98] (thread_first 0 2 1) (thread_last 0 2 1) (wrapInt 2) = [0]
    ∧ all_sections 1 [97, 98] [97, 98] = []
    ∧ redact_main 1 [97, 98] [97, 98] = [97, 98]
    ∧ redact_main 3 [97, 97] [97, 97, 97, 97, 97, 97, 97, 97, 97]
        = [48, 48, 48, 49, 49, 49, 49, 49, 97] := by
  decide

/-- C16: for any two orders `us`, `vs` of the same critical sections
`(thread id, match position)` with thread ids `≥ 0`, applying them gives the
same `text` and `flag` arrays from every starting state, in particular from the
initial arrays; after the run a cell that no section covers keeps its byte and
the flag `-1`, and a cell covered by some section holds the id `w` of a section
covering it that is the highest id among the sections covering it, and the
redact character of `w`.  Every order of the sections of the program gives the
arrays of the thread-after-thread order. -/
theorem C16_order_independent (pattern input : List Byte) (us vs : List (Int × Nat))
    (hperm : us.Perm vs) (hid : ∀ u ∈ us, 0 ≤ u.1) :
    (∀ st : Shared, us.foldl (apply_section (strlen pattern)) st
        = vs.foldl (apply_section (strlen pattern)) st)
    ∧ run_schedule pattern input us = run_schedule pattern input vs
    ∧ (∀ k : Nat,
        ((∀ u ∈ us, ¬ covers (strlen pattern) u k) →
            (run_schedule pattern input vs).flag k = -1
            ∧ (run_schedule pattern input vs).text k = input.getD k 0)
        ∧ ((∃ u ∈ us, covers (strlen pattern) u k) →
            ∃ w ∈ us, covers (strlen pattern) w k
              ∧ (∀ v ∈ us, covers (strlen pattern) v k → v.1 ≤ w.1)
              ∧ (run_schedule pattern input vs).flag k = w.1
              ∧ (run_schedule pattern input vs).text k = redact_char w.1))
    ∧ (∀ num_threads : Nat, us.Perm (all_sections num_threads pattern input) →
        run_schedule pattern input us
          = run_schedule pattern input (all_sections num_threads pattern input)) := by
  have heq : run_schedule pattern input us = run_schedule pattern input vs :=
    foldl_perm _ us vs hperm hid _
  refine ⟨fun st => foldl_perm _ us vs hperm hid st, heq, fun k => ?_,
    fun n hn => foldl_perm _ us _ hn hid _⟩
  rw [← heq]
  obtain ⟨_, h2, h3, h4, h5⟩ := schedule_inv (strlen pattern) input us hid k
  constructor
  · intro hno
    have hf : (run_schedule pattern input us).flag k = -1 := h2.mpr hno
    refine ⟨hf, ?_⟩
    have ht : (run_schedule pattern input us).text k
        = if (run_schedule pattern input us).flag k = -1 then input.getD k 0
          else redact_char ((run_schedule pattern input us).flag k) := h5
    rw [ht, if_pos hf]
  · rintro ⟨u, hu, hcov⟩
    have hne : (run_schedule pattern input us).flag k ≠ -1 :=
      fun hf => h2.mp hf u hu hcov
    obtain ⟨w, hw, hcw, hwe⟩ := h4 hne
    refine ⟨w, hw, hcw, fun v hv hcv => ?_, hwe.symm, ?_⟩
    · rw [hwe]
      exact h3 v hv hcv
    · have ht : (run_schedule pattern input us).text k
          = if (run_schedule pattern input us).flag k = -1 then input.getD k 0
            else redact_char ((run_schedule pattern input us).flag k) := h5
      rw [ht, if_neg hne, hwe]
      rfl

/-- C16, witness: pattern `"aa"` in the text `"aaa"`, thread 0 redacts offset 0
and thread 1 redacts offset 1; in both orders the text ends as `"011"` with the
flags `0, 1, 1`. -/
theorem C16_order_independent_witness :
    run_schedule [97, 97] [97, 97, 97] [(0, 0), (1, 1)]
        = run_schedule [97, 97] [97, 97, 97] [(1, 1), (0, 0)]
    ∧ (List.range 3).map (run_schedule [97, 97] [97, 97, 97] [(0, 0), (1, 1)]).text
        = [48, 49, 49]
    ∧ (List.range 3).map (run_schedule [97, 97] [97, 97, 97] [(1, 1), (0, 0)]).text
        = [48, 49, 49]
    ∧ (List.range 3).map (run_schedule [97, 97] [97, 97, 97] [(1, 1), (0, 0)]).flag
        = [0, 1, 1] :=
  ⟨(C16_order_independent [97, 97] [97, 97, 97] [(0, 0), (1, 1)] [(1, 1), (0, 0)]
      (List.Perm.swap _ _ _) (by decide)).2.1, by decide, by decide, by decide⟩

end Redact

/-!
## The result array of a worker (`search.c`)
-/

namespace Search

/-- The outer loop writes `res` only at the indices from the old `valid` up to
the new one. -/
theorem outer_loop_frame (chunk pattern : List Byte) :
    ∀ r i (st : ScanState),
      st.valid ≤ (outer_loop chunk pattern r i st).valid
      ∧ ∀ k, k < st.valid ∨ (outer_loop chunk pattern r i st).valid ≤ k →
          (outer_loop chunk pattern r i st).res k = st.res k := by
  intro r
  induction r with
  | zero =>
    intro i st
    exact ⟨Nat.le_refl _, fun k _ => rfl⟩
  | succ r ih =>
    intro i st
    rw [outer_loop]
    by_cases hm : inner_loop chunk pattern i (strlen pattern) 0 0 = strlen pattern
    · simp only [hm, if_true]
      obtain ⟨h1, h2⟩ := ih (i + 1)
        { res := Function.update st.res st.valid st.start_index, valid := st.valid + 1,
          start_index := wrapInt (st.start_index + 1) }
      have h1a : st.valid + 1 ≤ (outer_loop chunk pattern r (i + 1)
          { res := Function.update st.res st.valid st.start_index, valid := st.valid + 1,
            start_index := wrapInt (st.start_index + 1) }).valid := h1
      refine ⟨by omega, fun k hk => ?_⟩
      have hne : k ≠ st.valid := by omega
      rw [h2 k (by
        rcases hk with hk | hk
        · exact Or.inl (Nat.lt_succ_of_lt hk)
        · exact Or.inr hk)]
      exact Function.update_noteq hne _ _
    · simp only [hm, if_false]
      exact ih (i + 1) { st with start_index := wrapInt (st.start_index + 1) }

theorem filter_range_length_le (n lc : Nat) (q : Nat → Bool)
    (h : ∀ i, i < n → q i = true → i < lc) :
    ((List.range n).filter q).length ≤ min n lc := by
  induction n with
  | zero => simp
  | succ n ih =>
    have ih1 := ih (fun i hi hq => h i (Nat.lt_succ_of_lt hi) hq)
    rw [List.range_succ, List.filter_append, List.length_append]
    by_cases hq : q n = true
    · have hn := h n (Nat.lt_succ_self n) hq
      simp only [List.filter_cons, hq, if_true, List.filter_nil, List.length_singleton]
      omega
    · have hq2 : q n = false := by simpa using hq
      simp only [List.filter_cons, hq2, List.filter_nil, List.length_nil]
      simp only [Bool.false_eq_true, if_false, List.length_nil]
      omega

/-- A chunk string of at most `local_check + strlen(pattern) - 1` bytes has at
most `local_check` occurrences of a non-empty pattern. -/
theorem valid_le (res : Nat → Int) (start_index : Int) (chunk pattern : List Byte)
    (local_check : Nat) (hm : 1 ≤ strlen pattern)
    (hlen : strlen chunk ≤ local_check + strlen pattern - 1) :
    (check_pattern res start_index chunk pattern).valid ≤ local_check := by
  rw [(check_pattern_spec res start_index chunk pattern).2]
  refine Nat.le_trans (filter_range_length_le _ local_check _ ?_) (Nat.min_le_right _ _)
  intro i _ hq
  have hocc : occurs_at (cstr chunk) (cstr pattern) i := of_decide_eq_true hq
  have h1 : i + (cstr pattern).length ≤ (cstr chunk).length := hocc.1
  have h2 : (cstr pattern).length = strlen pattern := rfl
  have h3 : (cstr chunk).length = strlen chunk := rfl
  omega

end Search

namespace Search

/-- C21: for every result array length `local_check`, every non-empty pattern
and every chunk string of at most `local_check + pattern_length - 1` bytes,
`check_pattern` returns a count `valid ≤ local_check`, it reports `valid`
entries and leaves every cell `res[k]` with `k ≥ local_check` as it was: all its
writes `res[valid]` are inside `local_res[local_check]`.  The chunk that the
root sets up for a worker always has that length bound, whatever the buffer
held and wherever the chunk starts.  The bound comes from the chunk alone:
`check_pattern` has no use for `checking`, and on the chunk `"aaa"` with the
pattern `"a"` it writes three entries. -/
theorem C21_result_array (res : Nat → Int) (start_index : Int) (chunk pattern : List Byte)
    (local_check : Nat) (hm : 1 ≤ strlen pattern)
    (hlen : strlen chunk ≤ local_check + strlen pattern - 1) :
    (check_pattern res start_index chunk pattern).valid ≤ local_check
    ∧ (reported (check_pattern res start_index chunk pattern)).length
        = (check_pattern res start_index chunk pattern).valid
    ∧ (∀ k, local_check ≤ k → (check_pattern res start_index chunk pattern).res k = res k)
    ∧ (nul_free pattern → ∀ (garbage : Nat → Byte) (file : List Byte) (start : Int),
        strlen (worker_chunk garbage file pattern start local_check)
            ≤ local_check + strlen pattern - 1
        ∧ (check_pattern res start
            (worker_chunk garbage file pattern start local_check) pattern).valid
            ≤ local_check)
    ∧ (check_pattern res start_index [97, 97, 97] [97]).valid = 3 := by
  have hv := valid_le res start_index chunk pattern local_check hm hlen
  refine ⟨hv, ?_, ?_, ?_, ?_⟩
  · unfold reported
    rw [List.length_map, List.length_range]
  · intro k hk
    exact (outer_loop_frame chunk pattern (strlen chunk) 0
      { res := res, valid := 0, start_index := wrapInt start_index }).2 k
      (Or.inr (Nat.le_trans hv hk))
  · intro hpat garbage file start
    have hb : strlen (worker_chunk garbage file pattern start local_check)
        ≤ local_check + strlen pattern - 1 := by
      unfold worker_chunk
      rw [Int.toNat_ofNat, strlen_of_nul_free hpat]
      exact strlen_load_chunk_le _ _ _ _ _ (length_malloc_block _ _)
    exact ⟨hb, valid_le res start _ pattern local_check hm hb⟩
  · rw [(check_pattern_spec res start_index [97, 97, 97] [97]).2]
    decide

/-- C21, witness: the chunk `"abab"` of a worker with `local_check = 3` and the
pattern `"ab"`: two entries are written, in an array of three. -/
theorem C21_result_array_witness :
    (check_pattern (fun _ => 0) 0 [97, 98, 97, 98] [97, 98]).valid = 2
    ∧ (check_pattern (fun _ => 0) 0 [97, 98, 97, 98] [97, 98]).valid ≤ 3 :=
  ⟨by decide,
   (C21_result_array (fun _ => 0) 0 [97, 98, 97, 98] [97, 98] 3 (by decide) (by decide)).1⟩

end Search

/-!
## The row loop of `steady.c`
-/

namespace Steady

open Search

/-- More fuel does not change a result. -/
theorem row_loop_mono (rows p : Int) :
    ∀ fuel d i c acc out, row_loop rows p fuel i c acc = some out →
      row_loop rows p (fuel + d) i c acc = some out := by
  intro fuel
  induction fuel with
  | zero =>
    intro d i c acc out h
    exact absurd h (by simp [row_loop])
  | succ fuel ih =>
    intro d i c acc out h
    rw [Nat.add_right_comm, row_loop]
    rw [row_loop] at h
    by_cases ht : i < wrapInt (rows - 1)
    · rw [if_pos ht] at h ⊢
      exact ih d _ _ _ out h
    · rw [if_neg ht] at h ⊢
      exact h

/-- The pairs collected so far stay in the result. -/
theorem row_loop_mem (rows p : Int) :
    ∀ fuel i c acc out, row_loop rows p fuel i c acc = some out →
      ∀ x, x ∈ acc → x ∈ out := by
  intro fuel
  induction fuel with
  | zero =>
    intro i c acc out h
    exact absurd h (by simp [row_loop])
  | succ fuel ih =>
    intro i c acc out h x hx
    rw [row_loop] at h
    by_cases ht : i < wrapInt (rows - 1)
    · rw [if_pos ht] at h
      exact ih _ _ _ out h x (List.mem_append_left _ hx)
    · rw [if_neg ht] at h
      injection h with h
      rw [← h]
      exact hx

/-- The first `n` iterations, when the loop test holds for each of them and the
counter does not overflow. -/
theorem row_loop_jump (rows p : Nat) (h1 : 1 ≤ rows) (hrows : rows ≤ 2147483648) :
    ∀ n fuel i c acc, (∀ k, k < n → i + k * p < rows - 1) → i + n * p ≤ 2147483647 →
      row_loop rows p (fuel + n) (i : Nat) c acc
        = row_loop rows p fuel ((i + n * p : Nat) : Int) (c + n)
            (acc ++ (List.range n).map (fun k => (((i + k * p : Nat) : Int), c + k))) := by
  have hR : wrapInt ((rows : Int) - 1) = ((rows - 1 : Nat) : Int) := by
    rw [wrapInt_of_range] <;> omega
  intro n
  induction n with
  | zero =>
    intro fuel i c acc _ _
    simp
  | succ n ih =>
    intro fuel i c acc hk hfit
    have h0 := hk 0 (Nat.succ_pos n)
    have hmul : (n + 1) * p = n * p + p := Nat.succ_mul n p
    have hw : wrapInt ((i : Int) + (p : Int)) = ((i + p : Nat) : Int) := by
      push_cast
      apply wrapInt_of_range <;> omega
    rw [← Nat.add_assoc, row_loop, hR, if_pos (by omega), hw,
      ih fuel (i + p) (c + 1) (acc ++ [(((i : Nat) : Int), c)])
        (fun k hkn => by
          have := hk (k + 1) (Nat.succ_lt_succ hkn)
          have hm2 : (k + 1) * p = k * p + p := Nat.succ_mul k p
          omega)
        (by omega)]
    have e1 : i + p + n * p = i + (n + 1) * p := by omega
    have e2 : c + 1 + n = c + (n + 1) := by omega
    have hlist : acc ++ [(((i : Nat) : Int), c)]
          ++ (List.range n).map (fun k => (((i + p + k * p : Nat) : Int), c + 1 + k))
        = acc ++ (List.range (n + 1)).map (fun k => (((i + k * p : Nat) : Int), c + k)) := by
      rw [List.range_succ_eq_map, List.map_cons, List.map_map, List.append_assoc,
        List.singleton_append]
      refine congrArg (fun l => acc ++ l) ?_
      have hhead : (((i : Nat) : Int), c) = (((i + 0 * p : Nat) : Int), c + 0) := by
        rw [Nat.zero_mul, Nat.add_zero, Nat.add_zero]
      rw [hhead]
      refine congrArg (fun l => (((i + 0 * p : Nat) : Int), c + 0) :: l) ?_
      apply List.map_congr_left
      intro k _
      have hm2 : (k + 1) * p = k * p + p := Nat.succ_mul k p
      have e3 : i + p + k * p = i + (k + 1) * p := by omega
      have e4 : c + 1 + k = c + (k + 1) := by omega
      show (((i + p + k * p : Nat) : Int), c + 1 + k)
        = (((i + (k + 1) * p : Nat) : Int), c + (k + 1))
      rw [e3, e4]
    rw [e1, e2, hlist]

/-- The loop of a process whose counter does not overflow: `n` iterations, then
the test fails. -/
theorem row_loop_eq (rows p : Nat) (h1 : 1 ≤ rows) (hrows : rows ≤ 2147483648)
    (n fuel i c : Nat) (acc : List (Int × Nat))
    (hk : ∀ k, k < n → i + k * p < rows - 1) (hend : rows - 1 ≤ i + n * p)
    (hfit : i + n * p ≤ 2147483647) (hfuel : n + 1 ≤ fuel) :
    row_loop rows p fuel (i : Nat) c acc
      = some (acc ++ (List.range n).map (fun k => (((i + k * p : Nat) : Int), c + k))) := by
  have hR : wrapInt ((rows : Int) - 1) = ((rows - 1 : Nat) : Int) := by
    rw [wrapInt_of_range] <;> omega
  obtain ⟨f, rfl⟩ : ∃ f, fuel = (f + 1) + n := ⟨fuel - n - 1, by omega⟩
  rw [row_loop_jump rows p h1 hrows n (f + 1) i c acc hk hfit, row_loop, hR,
    if_neg (by omega)]

theorem check_eq (id rows p : Nat) (h3 : 3 ≤ rows) (hp : 1 ≤ p) (hrows : rows ≤ 2147483648) :
    check id rows p
      = (((rows - 2) / p + if id < (rows - 2) % p then 1 else 0 : Nat) : Int) := by
  have hw : wrapInt ((rows : Int) - 2) = ((rows - 2 : Nat) : Int) := by
    rw [wrapInt_of_range] <;> omega
  unfold check
  rw [hw]
  exact number_of_checks_eq id (rows - 2) p hp (by omega)

/-- The iterations of process `id`: `check` of them, the `k`-th one on grid row
`id + 1 + k * p` with chunk row `k`. -/
theorem visited_rows_eq (id rows p : Nat) (h3 : 3 ≤ rows) (hp : 1 ≤ p) (hid : id < p)
    (hfit : rows - 2 + p ≤ 2147483647) (fuel : Nat) (hfuel : rows ≤ fuel) :
    visited_rows fuel id rows p
      = some ((List.range (check id rows p).toNat).map
          (fun k => (((id + 1 + k * p : Nat) : Int), k))) := by
  have hw : wrapInt ((id : Int) + 1) = ((id + 1 : Nat) : Int) := by
    push_cast
    apply wrapInt_of_range <;> omega
  have hdm : p * ((rows - 2) / p) + (rows - 2) % p = rows - 2 := Nat.div_add_mod _ _
  have hcomm : p * ((rows - 2) / p) = (rows - 2) / p * p := Nat.mul_comm _ _
  have ht : (rows - 2) % p < p := Nat.mod_lt _ hp
  have hq : (rows - 2) / p ≤ rows - 2 := Nat.div_le_self _ _
  rw [check_eq id rows p h3 hp (by omega), Int.toNat_ofNat]
  unfold visited_rows
  rw [hw]
  have key : ∀ n, (∀ k, k < n → id + 1 + k * p < rows - 1) → rows - 1 ≤ id + 1 + n * p →
      n ≤ rows - 1 → id + 1 + n * p ≤ 2147483647 →
      row_loop rows p fuel ((id + 1 : Nat) : Int) 0 []
        = some ((List.range n).map (fun k => (((id + 1 + k * p : Nat) : Int), k))) := by
    intro n hk hend hn hf
    rw [row_loop_eq rows p (by omega) (by omega) n fuel (id + 1) 0 [] hk hend hf (by omega),
      List.nil_append]
    refine congrArg some (List.map_congr_left ?_)
    intro k _
    rw [Nat.zero_add]
  generalize hqd : (rows - 2) / p = q at hdm hcomm hq
  generalize (rows - 2) % p = t at hdm ht
  by_cases hlt : id < t
  · rw [if_pos hlt]
    have hmul : (q + 1) * p = q * p + p := Nat.succ_mul q p
    refine key (q + 1) (fun k hk => ?_) (by omega) (by omega) (by omega)
    have hkp : k * p ≤ q * p := Nat.mul_le_mul_right p (by omega)
    omega
  · rw [if_neg hlt, Nat.add_zero]
    refine key q (fun k hk => ?_) (by omega) (by omega) (by omega)
    have hkp : (k + 1) * p ≤ q * p := Nat.mul_le_mul_right p (by omega)
    have hm2 : (k + 1) * p = k * p + p := Nat.succ_mul k p
    omega

/-- The inner row `r` lies in the allocation of process `r mod p`: `r div p` is
below its `check`. -/
theorem row_index_lt (r rows p : Nat) (h3 : 3 ≤ rows) (hp : 1 ≤ p) (hr : r < rows - 2)
    (hrows : rows ≤ 2147483648) :
    r / p < (check (r % p : Nat) rows p).toNat := by
  have hdm : p * ((rows - 2) / p) + (rows - 2) % p = rows - 2 := Nat.div_add_mod _ _
  have hrm : p * (r / p) + r % p = r := Nat.div_add_mod _ _
  have hle : r / p ≤ (rows - 2) / p := Nat.div_le_div_right (Nat.le_of_lt hr)
  rw [check_eq (r % p) rows p h3 hp hrows, Int.toNat_ofNat]
  by_cases hlt : r % p < (rows - 2) % p
  · rw [if_pos hlt]
    omega
  · rw [if_neg hlt, Nat.add_zero]
    rcases Nat.lt_or_ge (r / p) ((rows - 2) / p) with h | h
    · exact h
    · exfalso
      have heq : r / p = (rows - 2) / p := Nat.le_antisymm hle h
      rw [heq] at hrm
      omega

end Steady

namespace Steady

open Search

/-- C22, counterexample: the counter `i` of the row loop is an `int` and
`i += p` wraps.  With `rows = 3` and `p = INT_MAX` process 0 has `check = 1`
but makes three iterations, with chunk rows 0, 1, 2 (`i = 1`, then
`1 + INT_MAX` wraps to `INT_MIN`, then `-1`).  With `rows = INT_MAX` and `p = 3`
process 1 has `check = 715827882`; after its iteration on grid row
`2147483645` the counter wraps to `INT_MIN`, the loop test holds again and the
next iteration uses chunk row `715827882`, which was not allocated. -/
theorem C22_counterexample :
    (check 0 3 2147483647 = 1
      ∧ ∀ fuel, 4 ≤ fuel →
          visited_rows fuel 0 3 2147483647 = some [(1, 0), (-2147483648, 1), (-1, 2)])
    ∧ (check 1 2147483647 3 = 715827882
      ∧ ∀ fuel out, visited_rows fuel 1 2147483647 3 = some out →
          ((-2147483648 : Int), 715827882) ∈ out) := by
  refine ⟨⟨by decide, fun fuel hfuel => ?_⟩, by decide, fun fuel out h => ?_⟩
  · obtain ⟨d, rfl⟩ : ∃ d, fuel = 4 + d := ⟨fuel - 4, by omega⟩
    exact row_loop_mono _ _ 4 d _ _ _ _ (by decide)
  · have h1 : row_loop ((2147483647 : Nat) : Int) ((3 : Nat) : Int)
        ((fuel + 2) + 715827881) ((2 : Nat) : Int) 0 [] = some out := by
      have := row_loop_mono _ _ fuel (2 + 715827881) _ _ _ _ h
      rw [← Nat.add_assoc] at this
      exact this
    rw [row_loop_jump 2147483647 3 (by decide) (by decide) 715827881 (fuel + 2) 2 0 []
      (fun k hk => by omega) (by decide)] at h1
    have e1 : ((2 + 715827881 * 3 : Nat) : Int) = 2147483645 := by decide
    have e2 : wrapInt (((2147483647 : Nat) : Int) - 1) = 2147483646 := by decide
    have e3 : wrapInt ((2147483645 : Int) + ((3 : Nat) : Int)) = -2147483648 := by decide
    rw [e1, row_loop, e2, if_pos (by decide), e3, row_loop, e2, if_pos (by decide)] at h1
    exact row_loop_mem _ _ _ _ _ _ out h1 _
      (List.mem_append_right _ (List.mem_singleton_self _))

/-- C22 (amended): for every `rows ≥ 3` and process count `p ≥ 1` with
`rows - 2 + p ≤ INT_MAX` (the counter of the row loop does not overflow), each
process `id` in `[0, p)` makes exactly `check = number_of_checks(id, rows - 2, p)`
iterations, the `k`-th one on grid row `id + 1 + k * p` with chunk row `k`; and
for every inner-grid row `r` in `[0, rows - 2)`, process `r mod p` visits grid
row `r + 1` as its iteration number `r div p` with chunk row `r div p`, which is
below its `check`; the final lookup takes process `output_x % p = r mod p` and
chunk row `output_x / p = r div p`, the allocated row that holds grid row
`r + 1`. -/
theorem C22_row_allocation (rows p : Nat) (h3 : 3 ≤ rows) (hp : 1 ≤ p)
    (hfit : rows - 2 + p ≤ 2147483647) :
    (∀ id fuel : Nat, id < p → rows ≤ fuel →
        visited_rows fuel id rows p
          = some ((List.range (check id rows p).toNat).map
              (fun k => (((id + 1 + k * p : Nat) : Int), k))))
    ∧ (∀ r : Nat, r < rows - 2 →
        r % p < p
        ∧ ((r / p : Nat) : Int) < check (r % p : Nat) rows p
        ∧ (∀ fuel : Nat, rows ≤ fuel →
            (visited_rows fuel (r % p : Nat) rows p).bind (fun l => l[r / p]?)
              = some (((r + 1 : Nat) : Int), r / p))
        ∧ id_has r p = ((r % p : Nat) : Int)
        ∧ output_chunk_row r p = ((r / p : Nat) : Int)) := by
  refine ⟨fun id fuel hid hfuel => visited_rows_eq id rows p h3 hp hid hfit fuel hfuel,
    fun r hr => ?_⟩
  have hmod : r % p < p := Nat.mod_lt _ hp
  have hlt := row_index_lt r rows p h3 hp hr (by omega)
  refine ⟨hmod, Int.lt_toNat.mp hlt, fun fuel hfuel => ?_, (Int.ofNat_tmod r p).symm,
    (Int.ofNat_tdiv r p).symm⟩
  rw [visited_rows_eq (r % p) rows p h3 hp hmod hfit fuel hfuel, Option.some_bind,
    List.getElem?_map, List.getElem?_range hlt, Option.map_some']
  have hrm : r % p + p * (r / p) = r := Nat.mod_add_div r p
  have hc : p * (r / p) = r / p * p := Nat.mul_comm _ _
  have e : r % p + 1 + r / p * p = r + 1 := by omega
  rw [e]

/-- C22, witness: a grid of 9 rows on 3 processes; process 0 visits the grid
rows 1, 4, 7 with chunk rows 0, 1, 2, and the inner row 4 is found on process
1 in chunk row 1. -/
theorem C22_row_allocation_witness :
    visited_rows 9 (0 : Nat) (9 : Nat) (3 : Nat) = some [(1, 0), (4, 1), (7, 2)]
    ∧ ((4 % 3 : Nat) : Int) = 1
    ∧ (visited_rows 9 ((4 % 3 : Nat) : Nat) (9 : Nat) (3 : Nat)).bind (fun l => l[4 / 3]?)
        = some (((4 + 1 : Nat) : Int), 4 / 3) :=
  ⟨by decide, by decide,
   ((C22_row_allocation 9 3 (by decide) (by decide) (by decide)).2 4 (by decide)).2.2.1 9
      (Nat.le_refl 9)⟩

end Steady

/-!
## The chunks and the sections of the threads (`redact.c`)
-/

namespace Redact

open Search

/-- The boundaries `first`, `last` of thread `i` where the products fit an
`intmax_t`. -/
theorem thread_range_wide (i len n : Nat) (hi : i < n) (hn : n ≤ 2147483647)
    (hfit : n * len ≤ 9223372036854775807) :
    thread_first i len n = ((i * len / n : Nat) : Int)
    ∧ thread_last i len n = (((i + 1) * len / n : Nat) : Int) := by
  have h1 : (i + 1) * len ≤ n * len := Nat.mul_le_mul_right len hi
  have h2 : i * len ≤ (i + 1) * len := Nat.mul_le_mul_right len (Nat.le_succ i)
  have hw : ∀ x : Nat, x ≤ 9223372036854775807 → wrapMax (x : Int) = (x : Int) := by
    intro x hx
    unfold wrapMax
    omega
  unfold thread_first thread_last
  have e1 : wrapInt ((i : Int) + 1) = ((i + 1 : Nat) : Int) := by
    rw [wrapInt_of_range] <;> push_cast <;> omega
  rw [e1, ← Nat.cast_mul, ← Nat.cast_mul, hw _ (by omega), hw _ (by omega),
    ← Int.ofNat_tdiv, ← Int.ofNat_tdiv]
  exact ⟨rfl, rfl⟩

theorem cstr_zero_cons (l : List Byte) : cstr ((0 : Byte) :: l) = [] := by
  unfold cstr
  rw [List.takeWhile_cons_of_neg (by decide)]

/-- The string in the chunk buffer after `strncpy` and the terminator. -/
theorem cstr_strncpy (src : List Byte) (K : Nat) :
    cstr (strncpy src K ++ [0]) = (cstr src).take K := by
  have hnf : nul_free ((cstr src).take K) :=
    fun b hb => cstr_nul_free src b (List.mem_of_mem_take hb)
  have hz : ∀ z : Nat, cstr (List.replicate z (0 : Byte) ++ [0]) = [] := by
    intro z
    cases z with
    | zero => exact cstr_zero_cons []
    | succ z => exact cstr_zero_cons _
  unfold strncpy
  rw [List.append_assoc, cstr_append_of_nul_free hnf, hz, List.append_nil]

/-- The string that starts at `input_text + f` when the text has no NUL. -/
theorem cstr_text_drop (input : List Byte) (hT : nul_free input) (f : Nat) :
    cstr ((input ++ [0]).drop f) = input.drop f := by
  have hz : cstr (([0] : List Byte).drop (f - input.length)) = [] := by
    cases f - input.length with
    | zero => exact cstr_zero_cons []
    | succ j =>
      rw [List.drop_succ_cons, List.drop_nil]
      rfl
  rw [List.drop_append_eq_append_drop,
    cstr_append_of_nul_free (fun b hb => hT b (List.mem_of_mem_drop hb)), hz,
    List.append_nil]

theorem cstr_thread_chunk (input pattern : List Byte) (hT : nul_free input)
    (first last fs : Int) :
    cstr (thread_chunk input pattern first last fs)
      = if last - first > 0 ∧ last + (strlen pattern : Int) - 2 < fs then
          (input.drop first.toNat).take
            (wrapInt ((last - first) + (strlen pattern : Int))).toNat
        else [] := by
  unfold thread_chunk
  by_cases hc : last - first > 0 ∧ last + (strlen pattern : Int) - 2 < fs
  · rw [if_pos hc, if_pos hc, cstr_strncpy, cstr_text_drop input hT]
  · rw [if_neg hc, if_neg hc]
    exact cstr_zero_cons []

/-- The scan of a thread: it collects, in scan order, the running start index of
every position at which the inner loop counted a full match. -/
theorem scan_loop_spec (chunk pattern : List Byte) :
    ∀ r i (s : Int) (acc : List Int), wrapInt s = s →
      scan_loop chunk pattern r i s acc
        = acc ++ ((List.range' i r).filter
              (fun k => decide (Search.inner_loop chunk pattern k (strlen pattern) 0 0
                                  = strlen pattern))).map
            (fun k => wrapInt (s + ((k - i : Nat) : Int))) := by
  intro r
  induction r with
  | zero => intro i s acc _; simp [scan_loop]
  | succ r ih =>
    intro i s acc hs
    rw [scan_loop, List.range'_succ]
    have hmap : ∀ (l : List Nat), (∀ k, k ∈ l → i + 1 ≤ k) →
        l.map (fun k => wrapInt (wrapInt (s + 1) + ((k - (i + 1) : Nat) : Int)))
          = l.map (fun k => wrapInt (s + ((k - i : Nat) : Int))) := by
      intro l hl
      apply List.map_congr_left
      intro k hk
      have := hl k hk
      rw [wrapInt_succ]
      congr 2
      omega
    have hmem : ∀ k, k ∈ (List.range' (i + 1) r).filter
          (fun k => decide (Search.inner_loop chunk pattern k (strlen pattern) 0 0
                              = strlen pattern)) →
        i + 1 ≤ k := by
      intro k hk
      exact (List.mem_range'_1.mp (List.mem_filter.mp hk).1).1
    rw [ih (i + 1) (wrapInt (s + 1)) _ (wrapInt_idem _), hmap _ hmem]
    by_cases hm : Search.inner_loop chunk pattern i (strlen pattern) 0 0 = strlen pattern
    · simp only [hm, if_true, List.filter_cons, decide_True]
      simp [hs]
    · simp only [hm, if_false, List.filter_cons, decide_False]
      simp

theorem wrapInt_le_self (x : Int) (h : 0 ≤ x) : wrapInt x ≤ x := by
  unfold wrapInt
  omega

theorem redact_char_ne_zero (id : Int) (h : 0 ≤ id) : redact_char id ≠ 0 := by
  have hall : ∀ j, j < 64 → redact_string.getD j 0 ≠ 0 := by decide
  have h1 : 0 ≤ Int.tmod id 64 := Int.tmod_nonneg _ h
  have h2 : Int.tmod id 64 < 64 := Int.tmod_lt_of_pos _ (by decide)
  unfold redact_char
  exact hall _ (by omega)

theorem section_start_eq (b e m k : Nat) (fs : Int) (hfs : fs ≤ 2147483647) (hm : 1 ≤ m)
    (hcond : ((e : Nat) : Int) - ((b : Nat) : Int) > 0 ∧ ((e : Nat) : Int) + (m : Int) - 2 < fs)
    (hk : k + m ≤ (wrapInt (((e : Nat) : Int) - ((b : Nat) : Int) + (m : Int))).toNat) :
    (wrapInt (wrapInt ((b : Nat) : Int) + ((k - 0 : Nat) : Int))).toNat = b + k := by
  have hK1 := wrapInt_le_self (((e : Nat) : Int) - ((b : Nat) : Int) + (m : Int)) (by omega)
  generalize wrapInt (((e : Nat) : Int) - ((b : Nat) : Int) + (m : Int)) = X at hk hK1
  have hX : ((X.toNat : Nat) : Int) ≤ ((e : Nat) : Int) - ((b : Nat) : Int) + (m : Int) := by
    omega
  have hbk : b + k ≤ 2147483647 := by omega
  have hb : wrapInt ((b : Nat) : Int) = ((b : Nat) : Int) := by
    apply wrapInt_of_range <;> omega
  have hw : wrapInt (((b : Nat) : Int) + ((k - 0 : Nat) : Int)) = ((b + k : Nat) : Int) := by
    rw [wrapInt_of_range] <;> omega
  rw [hb, hw, Int.toNat_ofNat]

/-- Every critical section of a thread starts at an occurrence of the pattern
in the original text. -/
theorem section_occurs (n : Nat) (pattern input : List Byte) (hT : nul_free input)
    (hm : 1 ≤ strlen pattern) (hn : n ≤ 2147483647)
    (hfit : n * input.length ≤ 9223372036854775807) (i : Nat) (hi : i < n)
    (u : Int × Nat) (hu : u ∈ thread_sections n pattern input i) :
    occurs_at input (cstr pattern) u.2 := by
  obtain ⟨hf, hl⟩ := thread_range_wide i input.length n hi hn hfit
  unfold thread_sections at hu
  rw [hf, hl] at hu
  generalize i * input.length / n = b at hu
  generalize (i + 1) * input.length / n = e at hu
  have hc := cstr_thread_chunk input pattern hT (b : Nat) (e : Nat) (wrapInt input.length)
  have hfs := (wrapInt_range (input.length : Int)).2
  generalize wrapInt (input.length : Int) = fs at hu hc hfs
  generalize thread_chunk input pattern (b : Nat) (e : Nat) fs = chunk at hu hc
  rw [List.mem_map] at hu
  obtain ⟨s, hs, hus⟩ := hu
  have hu2 : u.2 = s.toNat := by rw [← hus]
  rw [hu2]
  rw [scan_loop_spec _ _ _ _ _ _ (wrapInt_idem _), List.nil_append, List.mem_map] at hs
  obtain ⟨k, hk, hks⟩ := hs
  have hs2 : s = wrapInt (wrapInt ((b : Nat) : Int) + ((k - 0 : Nat) : Int)) := hks.symm
  rw [List.mem_filter] at hk
  obtain ⟨hkr, hkm⟩ := hk
  have hklt : k < strlen chunk := by
    have := (List.mem_range'_1.mp hkr).2
    omega
  have hocc : occurs_at (cstr chunk) (cstr pattern) k :=
    (inner_loop_match_iff chunk pattern k (Nat.le_of_lt hklt)).mp (of_decide_eq_true hkm)
  have hlen : (cstr chunk).length = strlen chunk := rfl
  have hplen : (cstr pattern).length = strlen pattern := rfl
  by_cases hcond : ((e : Nat) : Int) - ((b : Nat) : Int) > 0
      ∧ ((e : Nat) : Int) + (strlen pattern : Int) - 2 < fs
  · rw [if_pos hcond, Int.toNat_ofNat] at hc
    rw [hc] at hocc
    have hKlen := hocc.1
    rw [List.length_take, List.length_drop, hplen] at hKlen
    have hwin := (occurs_at_window input (cstr pattern) b _ k (by omega) (by
      rw [hplen]
      exact Nat.le_trans hKlen (Nat.min_le_left _ _))).mp hocc
    have hval := section_start_eq b e (strlen pattern) k fs hfs hm hcond
      (Nat.le_trans hKlen (Nat.min_le_left _ _))
    rw [hs2, hval]
    exact hwin
  · rw [if_neg hcond] at hc
    rw [← hlen, hc] at hklt
    exact absurd hklt (Nat.not_lt_zero k)


theorem mem_all_sections (n : Nat) (pattern input : List Byte) (u : Int × Nat)
    (hu : u ∈ all_sections n pattern input) :
    ∃ i, i < n ∧ u ∈ thread_sections n pattern input i := by
  unfold all_sections at hu
  rw [List.mem_flatten] at hu
  obtain ⟨l, hl, hul⟩ := hu
  rw [List.mem_map] at hl
  obtain ⟨i, hi, rfl⟩ := hl
  exact ⟨i, List.mem_range.mp hi, hul⟩

end Redact

namespace Redact

open Search

/-- After a run from the initial arrays over a text without NUL, with thread
ids `≥ 0`, no byte of the text is NUL. -/
theorem final_text_nul_free (m : Nat) (input : List Byte) (hT : nul_free input)
    (us : List (Int × Nat)) (hid : ∀ u ∈ us, 0 ≤ u.1) :
    nul_free ((List.range input.length).map (us.foldl (apply_section m) (initial input)).text) := by
  intro b hb
  rw [List.mem_map] at hb
  obtain ⟨k, hk, rfl⟩ := hb
  have hklt : k < input.length := List.mem_range.mp hk
  obtain ⟨h1, _, _, _, h5⟩ := schedule_inv m input us hid k
  rw [h5]
  by_cases hf : (us.foldl (apply_section m) (initial input)).flag k = -1
  · rw [if_pos hf, List.getD_eq_getElem _ _ hklt]
    exact hT _ (List.getElem_mem hklt)
  · rw [if_neg hf]
    exact redact_char_ne_zero _ (by omega)

end Redact

namespace Redact

open Search

/-- C23: for every input text without NUL, every pattern of length `≥ 1` and
every thread count `n` that an `int` holds (with `n * file_size` in the range
of `intmax_t`), in every order in which the threads take the mutex: every
critical section starts at an occurrence of the pattern in the original text
and covers only positions below `file_size`; a byte that differs from the
original lies at a position `k < file_size` inside an occurrence
`original_text[i .. i+len(pattern)) = pattern`; a position that no section
covers keeps its byte and the flag `-1`; and the text keeps its length (no
byte becomes NUL), which is the length of the output of `main`. -/
theorem C23_frame (pattern input : List Byte) (n : Nat) (hT : nul_free input)
    (hm : 1 ≤ strlen pattern) (hn : n ≤ 2147483647)
    (hfit : n * input.length ≤ 9223372036854775807)
    (schedule : List (Int × Nat)) (hs : schedule.Perm (all_sections n pattern input)) :
    (∀ u ∈ schedule, occurs_at input (cstr pattern) u.2
        ∧ ∀ k, covers (strlen pattern) u k → k < input.length)
    ∧ (∀ k, (run_schedule pattern input schedule).text k ≠ input.getD k 0 →
        k < input.length
        ∧ ∃ i, occurs_at input (cstr pattern) i ∧ i ≤ k ∧ k < i + strlen pattern)
    ∧ (∀ k, (∀ u ∈ schedule, ¬ covers (strlen pattern) u k) →
        (run_schedule pattern input schedule).text k = input.getD k 0
        ∧ (run_schedule pattern input schedule).flag k = -1)
    ∧ (cstr ((List.range input.length).map
          (run_schedule pattern input schedule).text)).length = input.length
    ∧ redact_main n pattern input
        = cstr ((List.range input.length).map (run_schedule pattern input schedule).text)
    ∧ (redact_main n pattern input).length = input.length := by
  have hids : ∀ u ∈ schedule, 0 ≤ u.1 :=
    fun u hu => all_sections_ids n pattern input u (hs.mem_iff.mp hu)
  have hplen : (cstr pattern).length = strlen pattern := rfl
  have hocc : ∀ u ∈ schedule, occurs_at input (cstr pattern) u.2
      ∧ ∀ k, covers (strlen pattern) u k → k < input.length := by
    intro u hu
    obtain ⟨i, hi, hui⟩ := mem_all_sections n pattern input u (hs.mem_iff.mp hu)
    have ho := section_occurs n pattern input hT hm hn hfit i hi u hui
    refine ⟨ho, fun k hk => ?_⟩
    have h1 := ho.1
    have h2 : u.2 ≤ k ∧ k < u.2 + strlen pattern := hk
    omega
  have hrun : run_schedule pattern input schedule
      = run_schedule pattern input (all_sections n pattern input) :=
    foldl_perm _ schedule _ hs hids _
  have hlen : (cstr ((List.range input.length).map
      (run_schedule pattern input schedule).text)).length = input.length := by
    have hnf : nul_free ((List.range input.length).map
        (run_schedule pattern input schedule).text) :=
      final_text_nul_free (strlen pattern) input hT schedule hids
    rw [cstr_of_nul_free hnf, List.length_map, List.length_range]
  have hmain : redact_main n pattern input
      = cstr ((List.range input.length).map (run_schedule pattern input schedule).text) := by
    rw [hrun]
    rfl
  refine ⟨hocc, fun k hk => ?_, fun k hk => ?_, hlen, hmain, by rw [hmain, hlen]⟩
  · obtain ⟨_, _, _, h4, h5⟩ := schedule_inv (strlen pattern) input schedule hids k
    have hne : (run_schedule pattern input schedule).flag k ≠ -1 := by
      intro hf
      apply hk
      have ht : (run_schedule pattern input schedule).text k
          = if (run_schedule pattern input schedule).flag k = -1 then input.getD k 0
            else redact_char ((run_schedule pattern input schedule).flag k) := h5
      rw [ht, if_pos hf]
    obtain ⟨u, hu, hcov, _⟩ := h4 hne
    have h2 : u.2 ≤ k ∧ k < u.2 + strlen pattern := hcov
    exact ⟨(hocc u hu).2 k hcov, u.2, (hocc u hu).1, h2.1, h2.2⟩
  · obtain ⟨_, h2, _, _, h5⟩ := schedule_inv (strlen pattern) input schedule hids k
    have hf : (run_schedule pattern input schedule).flag k = -1 := h2.mpr hk
    have ht : (run_schedule pattern input schedule).text k
        = if (run_schedule pattern input schedule).flag k = -1 then input.getD k 0
          else redact_char ((run_schedule pattern input schedule).flag k) := h5
    exact ⟨by rw [ht, if_pos hf], hf⟩

/-- C23, witness: the pattern `"ab"` in the text `"xabxabx"` on two threads:
only the bytes of the occurrence at offset 1 change, and the output has the
seven bytes of the input. -/
theorem C23_frame_witness :
    redact_main 2 [97, 98] [120, 97, 98, 120, 97, 98, 120] = [120, 48, 48, 120, 97, 98, 120]
    ∧ (redact_main 2 [97, 98] [120, 97, 98, 120, 97, 98, 120]).length
        = ([120, 97, 98, 120, 97, 98, 120] : List Byte).length :=
  ⟨by decide,
   (C23_frame [97, 98] [120, 97, 98, 120, 97, 98, 120] 2 (by decide) (by decide) (by decide)
      (by decide) (all_sections 2 [97, 98] [120, 97, 98, 120, 97, 98, 120])
      (List.Perm.refl _)).2.2.2.2.2⟩

end Redact
